import Mathlib

/-!
Verification development for the azmodb/db in-memory MVCC key/value store.

The Go sources keep keys as byte slices, values as `interface{}` holding
either `[]byte` (unicode/blob) or `int64` (numeric), and version history as
a slice of blocks `(data, rev)`.  We embed these shallowly: byte slices
become `List Nat`, the two value types become the inductive `Val`, and Go
slices of blocks become `List Block`.  External collaborators that are not
part of this repository (the `llrb` ordered-map library, `encoding/gob`,
`sort.Search`, `bytes.Compare`) are modelled by their documented contracts,
each marked in its doc comment.
-/

set_option autoImplicit false

deriving instance DecidableEq for Except

namespace Db

/-- Byte strings (Go `[]byte`): lists of byte values. -/
abbrev Key := List Nat

/-- Modelled from the Go standard library contract of `bytes.Compare`
(used as `compare` in pair.go): lexicographic comparison treating a nil
slice like an empty one; result is -1, 0 or 1. -/
def compareBytes : Key → Key → Int
  | [], [] => 0
  | [], _ :: _ => -1
  | _ :: _, [] => 1
  | a :: as, b :: bs => if a < b then -1 else if b < a then 1 else compareBytes as bs

/-- A pair value: Go `interface{}` restricted to `[]byte` (unicode) or
`int64` (numeric), the only two types the store accepts. -/
inductive Val where
  | bytes (data : List Nat) : Val
  | num (v : Int) : Val
  deriving DecidableEq

/-- Whether the value is the numeric (`int64`) variant — Go's
`_, ok := data.(int64)` type assertion. -/
def Val.isNum : Val → Bool
  | .bytes _ => false
  | .num _ => true

/-- The numeric payload (Go `block.num()`, a checked type assertion; the
source only calls it on numeric values). -/
def Val.numD : Val → Int
  | .bytes _ => 0
  | .num v => v

/-- Wrap-around of Go `int64` arithmetic: reduce an unbounded integer into
`[-2^63, 2^63)` modulo `2^64` (two's complement). -/
def i64wrap (x : Int) : Int := (x + 2 ^ 63) % 2 ^ 64 - 2 ^ 63

/-- `typeEqual` from db.go: compares the `reflect` kinds (and element types
for slices) of two stored values.  On the two value types the store admits
this means: same variant. -/
def typeEqual : Val → Val → Bool
  | .bytes _, .bytes _ => true
  | .num _, .num _ => true
  | _, _ => false

/-- An immutable value revision (`block` in pair.go): payload plus the
revision that created it. -/
structure Block where
  data : Val
  rev : Int
  deriving DecidableEq

/-- Go indexing `blocks[i]`; total via a default (the source never indexes
out of range on live records, whose block list is non-empty). -/
def blockAt (bs : List Block) (i : Nat) : Block := bs.getD i ⟨Val.num 0, 0⟩

/-- Revisions strictly increase along the block sequence (spec §3
invariant on versioned records). -/
def SortedBlocks (bs : List Block) : Prop := bs.Pairwise (fun a b => a.rev < b.rev)

/-- Modelled from the Go standard library contract of `sort.Search` as
instantiated in `pair.find`: the smallest index `i` with
`blocks[i].rev >= rev`, or `len(blocks)` when there is none. -/
def blockSearch (rev : Int) : List Block → Nat
  | [] => 0
  | b :: bs => if rev ≤ b.rev then 0 else blockSearch rev bs + 1

/-- `pair.find` from src/unnamed/part_000 (lines 106-124): binary search
for `rev`, then an equality or greater-or-equal check on the found index;
`(0, false)` when the revision is absent. -/
def findP0 (bs : List Block) (rev : Int) (equal : Bool) : Nat × Bool :=
  let index := blockSearch rev bs
  if bs.length ≤ index then (0, false)
  else if equal then
    (if (blockAt bs index).rev = rev then (index, true) else (0, false))
  else
    (if rev ≤ (blockAt bs index).rev then (index, true) else (0, false))

/-- `pair.find` from src/unnamed/part_001 (lines 64-82): binary search for
`rev`, a not-found guard when even the first block's revision exceeds
`rev`, an equality check when `equal`, and then a decrement of any
positive index before returning it. -/
def findP1 (bs : List Block) (rev : Int) (equal : Bool) : Nat × Bool :=
  let n := bs.length
  let index := blockSearch rev bs
  if index = 0 ∧ rev < (blockAt bs index).rev then (0, false)
  else if equal = true ∧ (n ≤ index ∨ (blockAt bs index).rev ≠ rev) then (0, false)
  else if 0 < index then (index - 1, true)
  else (index, true)

/-- Spec-side definition, following the claim's words: the smallest index
`i` such that `blocks[i].rev == rev`, `none` when no block has that
revision. -/
def specFindEq (rev : Int) : List Block → Option Nat
  | [] => none
  | b :: bs => if b.rev = rev then some 0 else (specFindEq rev bs).map (· + 1)

/-- Spec-side definition, following the claim's words: the smallest index
`i` such that `blocks[i].rev ≥ rev`, `none` when all block revisions are
strictly less than `rev`. -/
def specFindGe (rev : Int) : List Block → Option Nat
  | [] => none
  | b :: bs => if rev ≤ b.rev then some 0 else (specFindGe rev bs).map (· + 1)

/-- Package an optional index the way both `find` implementations report
results: `(i, true)` when found, `(0, false)` when absent. -/
def optIdx : Option Nat → Nat × Bool
  | some i => (i, true)
  | none => (0, false)

/-- A concrete two-block history with revisions 1 and 2, used to exhibit
the behaviour of `findP1`. -/
def cexBlocks : List Block := [⟨Val.num 10, 1⟩, ⟨Val.num 20, 2⟩]

/-! ## The engine generation

`DB`/`Txn` from src/unnamed/part_005 (second document, the documented
engine), whose pair type is the one of src/unnamed/part_001 (blocks with
`Data`/`Rev`, a `stream` pointer carried across versions) and whose
notification core is src/unnamed/part_031. -/

/-- The error constants of src/unnamed/part_005 (lines 305-328). -/
inductive DbError where
  | revisionNotFound
  | keyNotFound
  | incompatibleValue
  | pairDeleted
  | notifierCanceled
  | invertedRange
  deriving DecidableEq

/-- `Event` from src/unnamed/part_031: either a data event (key, payload,
created and current revision) or a terminal sentinel carrying an error. -/
inductive Event where
  | val (key : Key) (data : Val) (created current : Int) : Event
  | err (e : DbError) : Event
  deriving DecidableEq

/-- A `Notifier` (src/unnamed/part_031) as its consumer observes it: the
in-order queue of events handed to it, and whether it still accepts
events (`id > 0` in the source; `shutdown` sets `id = -1`). -/
structure Notif where
  active : Bool
  queue : List Event
  deriving DecidableEq

/-- A `stream` (src/unnamed/part_031): the per-pair registry of notifiers.
Notifiers live in a global heap (`Sys.notifs`) and are referenced by
index, mirroring the shared `*Notifier` pointers. -/
structure StreamSt where
  running : Bool
  num : Nat
  nids : List Nat
  deriving DecidableEq

/-- The engine pair (src/unnamed/part_001 lines 13-19): key, block
history, and the stream shared by all versions of the record, referenced
by index into the stream heap. -/
structure Pair where
  key : Key
  blocks : List Block
  sid : Nat
  deriving DecidableEq

/-- One engine state: the tree (`tree{root, rev}` of part_005) plus the
heaps of streams and notifiers reachable from its pairs. -/
structure Sys where
  pairs : List Pair
  rev : Int
  streams : List StreamSt
  notifs : List Notif
  deriving DecidableEq

/-- `pair.last` (src/unnamed/part_001 line 103): `blocks[len(blocks)-1]`;
total via a default (live records are non-empty). -/
def pairLast (bs : List Block) : Block := bs.getLast?.getD ⟨Val.num 0, 0⟩

/-- Modelled from the spec (§4.1): the llrb ordered map is an external
collaborator (github.com/azmodb/llrb); a root is represented as a
key-sorted association list.  `Get` returns the element whose key
compares equal under `bytes.Compare`. -/
def treeGet : List Pair → Key → Option Pair
  | [], _ => none
  | p :: t, k => if compareBytes k p.key = 0 then some p else treeGet t k

/-- Modelled from the spec (§4.1): `Txn.Insert` places the pair at its key
position, replacing an equal-keyed element. -/
def treeInsert : List Pair → Pair → List Pair
  | [], p => [p]
  | q :: t, p =>
    if compareBytes p.key q.key < 0 then p :: q :: t
    else if compareBytes p.key q.key = 0 then p :: t
    else q :: treeInsert t p

/-- Modelled from the spec (§4.1): `Txn.Delete` removes the element with
the given key. -/
def treeDelete : List Pair → Key → List Pair
  | [], _ => []
  | q :: t, k => if compareBytes k q.key = 0 then t else q :: treeDelete t k

/-- `Notifier.send` (src/unnamed/part_031 lines 94-108): enqueue a data
event unless the notifier was shut down. -/
def notifSend (s : Sys) (nid : Nat) (e : Event) : Sys :=
  match s.notifs.get? nid with
  | some nf =>
    if nf.active then
      { s with notifs := s.notifs.set nid ⟨true, nf.queue ++ [e]⟩ }
    else s
  | none => s

/-- `Notifier.close` (src/unnamed/part_031 lines 110-119): enqueue the
terminal sentinel and shut the notifier down; a no-op when already shut
down. -/
def notifClose (s : Sys) (nid : Nat) (e : DbError) : Sys :=
  match s.notifs.get? nid with
  | some nf =>
    if nf.active then
      { s with notifs := s.notifs.set nid ⟨false, nf.queue ++ [Event.err e]⟩ }
    else s
  | none => s

/-- `stream.Notify` (src/unnamed/part_031 lines 157-169): when the stream
runs, send the pair's last block to every registered notifier. -/
def streamNotify (s : Sys) (sid : Nat) (p : Pair) (cur : Int) : Sys :=
  match s.streams.get? sid with
  | some st =>
    if st.running then
      st.nids.foldl
        (fun s2 nid =>
          notifSend s2 nid (Event.val p.key (pairLast p.blocks).data (pairLast p.blocks).rev cur))
        s
    else s
  | none => s

/-- `stream.Cancel` (src/unnamed/part_031 lines 171-186): close every
registered notifier with the `pairDeleted` sentinel and reset the
stream. -/
def streamCancel (s : Sys) (sid : Nat) : Sys :=
  match s.streams.get? sid with
  | some st =>
    if st.running then
      let s2 := st.nids.foldl (fun s3 nid => notifClose s3 nid DbError.pairDeleted) s
      { s2 with streams := s2.streams.set sid ⟨false, 0, []⟩ }
    else s
  | none => s

/-- `stream.Register` (src/unnamed/part_031 lines 139-147): initialize the
stream if needed, allocate a fresh notifier and register it; returns the
new notifier's heap index. -/
def streamRegister (s : Sys) (sid : Nat) : Sys × Nat :=
  match s.streams.get? sid with
  | some st =>
    let st1 := if st.running then st else ⟨true, 0, []⟩
    let nid := s.notifs.length
    ({ s with
        streams := s.streams.set sid ⟨true, st1.num + 1, st1.nids ++ [nid]⟩,
        notifs := s.notifs ++ [⟨true, []⟩] }, nid)
  | none => (s, 0)

/-- `pair.insert` (src/unnamed/part_001 lines 87-101): append a block, or
— when `ts` — start a fresh one-block tombstone history; the stream is
carried over. -/
def pairInsertP1 (p : Pair) (data : Val) (rev : Int) (ts : Bool) : Pair :=
  if ts then { key := p.key, blocks := [⟨data, rev⟩], sid := p.sid }
  else { key := p.key, blocks := p.blocks ++ [⟨data, rev⟩], sid := p.sid }

/-- `lookup` (src/unnamed/part_005 lines 480-492): for `rev > 0` locate
the block through `pair.find`, otherwise take the last block. -/
def lookupBlock (bs : List Block) (rev : Int) (equal : Bool) : Option Block :=
  if 0 < rev then
    let r := findP1 bs rev equal
    if r.2 then some (blockAt bs r.1) else none
  else some (pairLast bs)

/-- `DB.Get` (src/unnamed/part_005 lines 464-478): locate the pair, then
the block; returns (data, block revision) or an error, together with the
root's current revision. -/
def dbGet (s : Sys) (key : Key) (rev : Int) (equal : Bool) :
    Except DbError (Val × Int) × Int :=
  match treeGet s.pairs key with
  | some p =>
    match lookupBlock p.blocks rev equal with
    | some b => (.ok (b.data, b.rev), s.rev)
    | none => (.error .revisionNotFound, s.rev)
  | none => (.error .keyNotFound, s.rev)

/-- `DB.Watch` (src/unnamed/part_005 lines 570-580): register a notifier
on the pair's stream; `keyNotFound` when the key is absent. -/
def dbWatch (s : Sys) (key : Key) : (Sys × Except DbError Nat) × Int :=
  match treeGet s.pairs key with
  | some p =>
    let r := streamRegister s p.sid
    ((r.1, .ok r.2), s.rev)
  | none => ((s, .error .keyNotFound), s.rev)

/-- `Txn.Update` (src/unnamed/part_005 lines 607-629): compute the next
revision, apply the updater to the prior payload, reject a kind change
(`typeEqual`), insert the successor pair and notify its stream. -/
def txnUpdate (s : Sys) (key : Key) (up : Option Val → Val) (ts : Bool) :
    Sys × Except DbError Int :=
  let rev := s.rev + 1
  match treeGet s.pairs key with
  | some p =>
    let last := (pairLast p.blocks).data
    let d := up (some last)
    if typeEqual last d = false then (s, .error .incompatibleValue)
    else
      let p2 := pairInsertP1 p d rev ts
      let s2 := { s with pairs := treeInsert s.pairs p2, rev := rev }
      (streamNotify s2 p2.sid p2 rev, .ok rev)
  | none =>
    let sid := s.streams.length
    let p2 : Pair := ⟨key, [⟨up none, rev⟩], sid⟩
    let s2 := { s with
      pairs := treeInsert s.pairs p2, rev := rev,
      streams := s.streams ++ [⟨false, 0, []⟩] }
    (streamNotify s2 sid p2 rev, .ok rev)

/-- `Txn.Put` (src/unnamed/part_005 lines 642-644): `Update` with the
constant updater `noop(data)`. -/
def txnPut (s : Sys) (key : Key) (data : Val) (ts : Bool) : Sys × Except DbError Int :=
  txnUpdate s key (fun _ => data) ts

/-- `Txn.Delete` (src/unnamed/part_005 lines 648-660): when the key is
staged, remove it, advance the staged revision, notify the stream with
the deleted pair and cancel the stream; otherwise do nothing. -/
def txnDelete (s : Sys) (key : Key) : Sys × Int :=
  match treeGet s.pairs key with
  | some p =>
    let s1 := { s with pairs := treeDelete s.pairs key, rev := s.rev + 1 }
    let s2 := streamNotify s1 p.sid p (s.rev + 1)
    (streamCancel s2 p.sid, s.rev + 1)
  | none => (s, s.rev)

/-- The mutable pieces `Txn.Commit`/`Txn.Rollback` touch: the published
root (with its revision and the reachable heaps), the writer mutex, and
the transaction handle — `tx.txn == nil` after the first Commit or
Rollback, modelled as `none` (Commit also clears `tx.rev` and `tx.db`,
which the `none` state subsumes). -/
structure DbWorld where
  published : Sys
  writerLocked : Bool
  txn : Option Sys
  deriving DecidableEq

/-- `Txn.Commit` (src/unnamed/part_005 lines 664-675): a no-op on a
finished transaction; otherwise publish the staged tree as the new root
with `rev = tx.rev`, clear the handle and release the writer lock. -/
def txnCommit (w : DbWorld) : DbWorld :=
  match w.txn with
  | none => w
  | some st => { published := st, writerLocked := false, txn := none }

/-- `Txn.Rollback` (src/unnamed/part_005 lines 678-686): a no-op on a
finished transaction; otherwise discard the staged tree, clear the handle
and release the writer lock. -/
def txnRollback (w : DbWorld) : DbWorld :=
  match w.txn with
  | none => w
  | some _ => { published := w.published, writerLocked := false, txn := none }

/-- Go nil-able byte slices (`from`, `to` of `DB.Range`): `none` is a nil
slice; `bytes.Compare` treats nil like empty. -/
def optBytes : Option Key → Key
  | none => []
  | some k => k

/-- The single-key point query `db.get` (src/unnamed/part_005 lines
505-516): one event carrying the `Get` result, or the closing error. -/
def pointEvents (s : Sys) (key : Key) (rev : Int) : List Event :=
  match (dbGet s key rev false).1 with
  | .ok (d, cr) => [Event.val key d cr s.rev]
  | .error e => [Event.err e]

/-- Modelled from the spec (§4.1): the pairs `llrb.Tree.Range`/`ForEach`
visits — ascending keys, the half-open interval `[lo, hi)` for a bounded
range, everything for the full scan. -/
def visitedPairs (l : List Pair) (fromK toK : Option Key) : List Pair :=
  match fromK, toK with
  | none, none => l
  | _, _ =>
    l.filter fun p =>
      decide (compareBytes (optBytes fromK) p.key ≤ 0) &&
        decide (compareBytes p.key (optBytes toK) < 0)

/-- `rangeFunc` (src/unnamed/part_005 lines 494-503) applied along the
visited pairs: look each pair up with `equal = false`, emit found blocks,
skip the rest silently.  (`limit` is accepted but never consulted by
`rangeFunc` in this generation.) -/
def scanEvents (s : Sys) (visited : List Pair) (rev : Int) : List Event :=
  visited.filterMap fun p =>
    (lookupBlock p.blocks rev false).map fun b => Event.val p.key b.data b.rev s.rev

/-- `DB.Range` (src/unnamed/part_005 lines 532-559): the inverted-range
guard on `compare(from, to)`, then the point-query branch for
`from != nil && to == nil`, then the scan. -/
def dbRange (s : Sys) (fromK toK : Option Key) (rev : Int) (limit : Int) :
    Except DbError (List Event) × Int :=
  if 0 < compareBytes (optBytes fromK) (optBytes toK) then
    (.error .invertedRange, s.rev)
  else if fromK.isSome ∧ toK = none then
    (.ok (pointEvents s (optBytes fromK) rev), s.rev)
  else
    (.ok (scanEvents s (visitedPairs s.pairs fromK toK) rev), s.rev)

/-! ## Reachability and invariants (C7) -/

/-- A batch write operation of the engine generation (`Txn.Update`, which
`Put` wraps, and `Txn.Delete`). -/
inductive WOp where
  | update (key : Key) (up : Option Val → Val) (ts : Bool) : WOp
  | delete (key : Key) : WOp

/-- Apply one batch operation to the staged state (the result component of
the operation is discarded). -/
def applyWOp (s : Sys) : WOp → Sys
  | .update key up ts => (txnUpdate s key up ts).1
  | .delete key => (txnDelete s key).1

/-- `New` (src/unnamed/part_005 line 371): the empty tree at revision 0. -/
def emptySys : Sys := ⟨[], 0, [], []⟩

/-- Apply a sequence of batch write operations.  `Txn` forks the current
root and `Commit` publishes the staged tree verbatim, so the roots
reachable from `New` through committed batches are exactly the states
obtained by folding the operations. -/
def runOps (s : Sys) (ops : List WOp) : Sys := ops.foldl applyWOp s

/-- All blocks of a history share one value kind. -/
def KindConst (bs : List Block) : Prop :=
  ∀ b1 ∈ bs, ∀ b2 ∈ bs, b1.data.isNum = b2.data.isNum

/-- The record invariants of spec §3: non-empty history, strictly
increasing revisions, one kind. -/
def PairWF (p : Pair) : Prop :=
  p.blocks ≠ [] ∧ SortedBlocks p.blocks ∧ KindConst p.blocks

/-- Every record of the state is well-formed and its revisions are bounded
by the state's revision. -/
def SysWF (s : Sys) : Prop :=
  ∀ p ∈ s.pairs, PairWF p ∧ ∀ b ∈ p.blocks, b.rev ≤ s.rev

/-- The part_000 pair: a kind tag (1 = numeric, 2 = unicode), a string
key, blocks. -/
structure P0Pair where
  typ : Nat
  key : Key
  blocks : List Block
  deriving DecidableEq

/-- `pair.increment` from src/unnamed/part_000 (lines 171-188): one fresh
block holding `blocks[0].num() + t` (Go int64 addition wraps), same kind
tag and key. -/
def p0Increment (p : P0Pair) (t : Int) (rev : Int) : P0Pair :=
  ⟨p.typ, p.key, [⟨Val.num (i64wrap ((blockAt p.blocks 0).data.numD + t)), rev⟩]⟩

/-! ## The batch.go generation (C3, C4) -/

/-- The pb value kinds of the batch.go generation. -/
inductive BKind where
  | unicode
  | numeric
  deriving DecidableEq

/-- The pb-generation pair used by src/batch.go: kind tag fixed at
creation, value history, and a state marker (`Batch.Delete` sets
`p.state = deleted` instead of removing the element). -/
structure BPair where
  key : Key
  typ : BKind
  values : List Block
  state : Nat
  deriving DecidableEq

/-- `pair.isNum`. -/
def BPair.isNum (p : BPair) : Bool := decide (p.typ = BKind.numeric)

/-- `pair.append` (pair.go): append one unicode value. -/
def bAppend (p : BPair) (v : Val) (rev : Int) : BPair :=
  { p with values := p.values ++ [⟨v, rev⟩] }

/-- `pair.tombstone` (pair.go): truncate the history to one value and
overwrite it. -/
def bTombstone (p : BPair) (v : Val) (rev : Int) : BPair :=
  { p with values := [⟨v, rev⟩] }

/-- `pair.increment` (pair.go): add to `Values[0].Numeric` (Go int64
wrap-around) and stamp the new revision; the source panics on an empty
history, which live records never have. -/
def bIncrement (p : BPair) (v : Val) (rev : Int) : BPair :=
  match p.values with
  | [] => p
  | b :: rest => { p with values := ⟨Val.num (i64wrap (b.data.numD + v.numD)), rev⟩ :: rest }

/-- `newPair` (pair.go): kind inferred from the payload type. -/
def newBPair (key : Key) (v : Val) (rev : Int) : BPair :=
  ⟨key, if v.isNum then .numeric else .unicode, [⟨v, rev⟩], 0⟩

/-- Modelled from the spec (§4.1): llrb `Get` for the batch generation. -/
def bGet : List BPair → Key → Option BPair
  | [], _ => none
  | p :: t, k => if compareBytes k p.key = 0 then some p else bGet t k

/-- Modelled from the spec (§4.1): llrb `Insert` for the batch
generation. -/
def bInsertTree : List BPair → BPair → List BPair
  | [], p => [p]
  | q :: t, p =>
    if compareBytes p.key q.key < 0 then p :: q :: t
    else if compareBytes p.key q.key = 0 then p :: t
    else q :: bInsertTree t p

/-- `p.state = deleted` under `p.mu` (src/batch.go lines 108-110): mark
the staged pair with the given key deleted, in place. -/
def bMarkDeleted (l : List BPair) (k : Key) : List BPair :=
  l.map fun p => if compareBytes k p.key = 0 then { p with state := 1 } else p

/-- A batch transaction (src/batch.go lines 6-10): the staged map and the
staged revision counter. -/
structure BatchSt where
  staged : List BPair
  rev : Int
  deriving DecidableEq

/-- `Batch.insert` (src/batch.go lines 12-48): compute the next revision;
on an existing key reject a kind mismatch, else tombstone/append (blob)
or increment (numeric); on a missing key create the pair.  Returns the
prior record's last value when `prev` is set. -/
def batchInsert (b : BatchSt) (key : Key) (v : Val) (ts prev : Bool) :
    BatchSt × Except DbError (Option Block) :=
  let rev := b.rev + 1
  match bGet b.staged key with
  | some parent =>
    if (v.isNum && !parent.isNum) || (!v.isNum && parent.isNum) then
      (b, .error .incompatibleValue)
    else
      let p2 :=
        if !parent.isNum then
          (if ts then bTombstone parent v rev else bAppend parent v rev)
        else bIncrement parent v rev
      ({ staged := bInsertTree b.staged p2, rev := rev },
        .ok (if prev then some (pairLast parent.values) else none))
  | none =>
    ({ staged := bInsertTree b.staged (newBPair key v rev), rev := rev }, .ok none)

/-- `Batch.Insert` (src/batch.go lines 89-96): append semantics. -/
def batchInsertOp (b : BatchSt) (key : Key) (value : List Nat) (prev : Bool) :
    BatchSt × Except DbError (Option Block) :=
  batchInsert b key (Val.bytes value) false prev

/-- `Batch.Put` (src/batch.go lines 76-83): tombstone semantics. -/
def batchPut (b : BatchSt) (key : Key) (value : List Nat) (prev : Bool) :
    BatchSt × Except DbError (Option Block) :=
  batchInsert b key (Val.bytes value) true prev

/-- `Batch.Increment` (src/batch.go lines 63-70). -/
def batchIncrement (b : BatchSt) (key : Key) (value : Int) (prev : Bool) :
    BatchSt × Except DbError (Option Block) :=
  batchInsert b key (Val.num value) false prev

/-- `Batch.Decrement` (src/batch.go lines 52-59): increment by
`value * -1` (Go int64 negation wraps). -/
def batchDecrement (b : BatchSt) (key : Key) (value : Int) (prev : Bool) :
    BatchSt × Except DbError (Option Block) :=
  batchInsert b key (Val.num (i64wrap (value * -1))) false prev

/-- `Batch.Delete` (src/batch.go lines 100-114): `keyNotFound` when the
key is not staged; otherwise advance the staged revision and mark the
pair deleted, returning its last value. -/
def batchDelete (b : BatchSt) (key : Key) (prev : Bool) :
    BatchSt × Except DbError Block :=
  match bGet b.staged key with
  | some p =>
    ({ staged := bMarkDeleted b.staged key, rev := b.rev + 1 }, .ok (pairLast p.values))
  | none => (b, .error .keyNotFound)

/-- `DB.Next` (src/batch.go lines 123-127): fork a batch from the current
root and its revision. -/
def freshBatch (root : List BPair) (rev : Int) : BatchSt := ⟨root, rev⟩

/-! ## Snapshot and reload (C8) -/

/-- The encoded form of a block history.  Modelled from the spec:
`encoding/gob` is a standard-library collaborator; we abstract its byte
stream by the encoded value itself. -/
abbrev EncVal := List Block

/-- `encode` (src/snap.go line 12), abstracted by gob's contract. -/
def gobEncode (bs : List Block) : EncVal := bs

/-- The failure modes of the snapshot/reload pipeline: the bolt
`CreateBucket` error when a revision was already snapshotted, the
`revision not found` error of `Backend.Range`, and the missing-value
case that `Range` panics on. -/
inductive SnapErr where
  | bucketExists
  | revisionNotFound
  | valueMissing
  deriving DecidableEq

/-- `decode` (src/snap.go line 8), abstracted by gob's round-trip
contract: decoding a stream produced by `encode` yields the original
blocks. -/
def gobDecode (e : EncVal) : Except SnapErr (List Block) := .ok e

/-- `binary.BigEndian.PutUint64`: the eight big-endian base-256 digits. -/
def putUint64BE (n : Nat) : List Nat :=
  [n / 2 ^ 56 % 256, n / 2 ^ 48 % 256, n / 2 ^ 40 % 256, n / 2 ^ 32 % 256,
    n / 2 ^ 24 % 256, n / 2 ^ 16 % 256, n / 2 ^ 8 % 256, n % 256]

/-- `binary.BigEndian.Uint64`. -/
def readUint64BE (l : List Nat) : Nat := l.foldl (fun a b => a * 256 + b) 0

/-- Go's `uint64(rev)` conversion from int64: reduce modulo `2^64`. -/
def toUint64 (r : Int) : Nat := (r % 2 ^ 64).toNat

/-- Go's `int64(u)` conversion from uint64: two's complement
reinterpretation. -/
def toInt64 (n : Nat) : Int := if n < 2 ^ 63 then (n : Int) else (n : Int) - 2 ^ 64

/-- An 8-byte serialized revision: `Revision [8]byte` of
src/unnamed/part_018 (line 43). -/
abbrev Revision := List Nat

/-- `sha1sum` (src/unnamed/part_018 lines 211-217).  crypto/sha1 is a
standard-library collaborator; the code uses the digest purely as a
collision-free content address for the data bucket, so we represent it
by the digested bytes themselves. -/
def sha1sum (v : EncVal) : EncVal := v

/-- `snappy.Encode` as called in `batch.Put` (part_018 line 248).  The
snappy codec is an external collaborator (github.com/golang/snappy),
abstracted by its lossless round-trip contract. -/
def snappyEncode (v : EncVal) : EncVal := v

/-- `snappy.Decode` as called in `DB.Range` (part_018 line 164),
abstracted by the same round-trip contract. -/
def snappyDecode (v : EncVal) : Except SnapErr EncVal := .ok v

/-- `clone` (src/unnamed/part_018 lines 290-298): a byte copy — the
identity on byte-string values. -/
def cloneBytes (src : Key) : Key := src

/-- Modelled from the contract of the external boltdb collaborator: a
bucket is a key-sorted persistent map whose `Put` inserts or replaces
and whose cursor walks ascending keys.  Used for the meta bucket
(8-byte revision keys) and each per-revision sub-bucket (record keys). -/
def bucketPut {β : Type} : List (List Nat × β) → List Nat → β → List (List Nat × β)
  | [], k, v => [(k, v)]
  | (k0, v0) :: t, k, v =>
    if compareBytes k k0 < 0 then (k, v) :: (k0, v0) :: t
    else if compareBytes k k0 = 0 then (k, v) :: t
    else (k0, v0) :: bucketPut t k v

/-- bolt bucket `Get` (first entry with an equal key). -/
def bucketGet {β : Type} : List (List Nat × β) → List Nat → Option β
  | [], _ => none
  | (k0, v0) :: t, k => if compareBytes k k0 = 0 then some v0 else bucketGet t k

/-- The data bucket, keyed by sha1 digests.  Digest bytes are abstract
here, so the bucket is modelled as an association map — the code only
ever reads it by exact key (`data.Get(sum)`), never by iteration. -/
def dataGet : List (EncVal × EncVal) → EncVal → Option EncVal
  | [], _ => none
  | (s0, v0) :: t, s => if s0 = s then some v0 else dataGet t s

/-- `batch.put` (src/unnamed/part_018 lines 255-264) acting on the two
buckets: content-address the compressed value by its digest, store it
only when absent, and point the revision sub-bucket's key at the
digest. -/
def putResolved (md : List (Key × EncVal) × List (EncVal × EncVal))
    (e : Key × EncVal) : List (Key × EncVal) × List (EncVal × EncVal) :=
  let sum := sha1sum e.2
  let data2 :=
    match dataGet md.2 sum with
    | none => (sum, e.2) :: md.2
    | some _ => md.2
  (bucketPut md.1 e.1 sum, data2)

/-- `batch` (src/unnamed/part_018 lines 224-234): the buffered pending
entries (`entries[0:index]`, each key cloned and each value compressed
at `Put` time), the running size, the flush thresholds, and the two
buckets of the surrounding write transaction. -/
structure BBatch where
  pending : List (Key × EncVal)
  size : Nat
  maxEntries : Nat
  maxSize : Nat
  meta : List (Key × EncVal)
  data : List (EncVal × EncVal)
  deriving DecidableEq

/-- `batch.flush` (src/unnamed/part_018 lines 266-280): once a threshold
is reached — or when forced — write every pending entry through
`batch.put` in arrival order and reset the buffer. -/
def bflush (b : BBatch) (force : Bool) : BBatch :=
  if b.maxEntries ≤ b.pending.length ∨ b.maxSize ≤ b.size ∨ force = true then
    let md := b.pending.foldl putResolved (b.meta, b.data)
    { b with pending := [], size := 0, meta := md.1, data := md.2 }
  else b

/-- `batch.Put` (src/unnamed/part_018 lines 245-253): clone the key,
snappy-compress the value into a fresh buffer, buffer the entry, account
`len(key)+len(value)` and flush if a threshold is reached.  (Byte
lengths of the abstracted encodings are represented by their element
counts; they only govern flush timing.) -/
def bbPut (b : BBatch) (key : Key) (value : EncVal) : BBatch :=
  bflush
    { b with
      pending := b.pending ++ [(cloneBytes key, snappyEncode value)],
      size := b.size + key.length + value.length }
    false

/-- The contents a batch will have committed once its pending entries
are flushed: the two buckets after writing every pending entry through
`batch.put` in arrival order.  (Abstraction used by the proofs: flush
timing never changes it.) -/
def commitB (b : BBatch) : List (Key × EncVal) × List (EncVal × EncVal) :=
  b.pending.foldl putResolved (b.meta, b.data)

/-- `defaultMaxBatchEntries` (part_018 line 83). -/
def defaultMaxBatchEntries : Nat := 256

/-- `defaultMaxBatchSize = 2 << 20` (part_018 line 82). -/
def defaultMaxBatchSize : Nat := 2097152

/-- The backend `DB` (src/unnamed/part_018 lines 75-79) as its two bolt
buckets: `__meta__` mapping each 8-byte revision to its sub-bucket of
`key ↦ sha1 sum`, and `__data__` mapping each sum to a compressed
value. -/
structure BackendDB where
  meta : List (Revision × List (Key × EncVal))
  data : List (EncVal × EncVal)
  deriving DecidableEq

/-- A freshly opened backend: both buckets empty. -/
def emptyBackend : BackendDB := ⟨[], []⟩

/-- `DB.Batch` (src/unnamed/part_018 lines 190-209): start a write
transaction and create the fresh per-revision meta sub-bucket —
`CreateBucket` errors when this revision was already snapshotted — then
hand out a batch over it and the shared data bucket. -/
def backendBatch (db : BackendDB) (rev : Revision) : Except SnapErr BBatch :=
  match bucketGet db.meta rev with
  | some _ => .error .bucketExists
  | none =>
    .ok ⟨[], 0, defaultMaxBatchEntries, defaultMaxBatchSize, [], db.data⟩

/-- `batch.Close` (src/unnamed/part_018 lines 282-288) plus the bolt
commit: force a final flush and publish the revision sub-bucket and the
data bucket. -/
def bbClose (db : BackendDB) (rev : Revision) (b : BBatch) : BackendDB :=
  let b2 := bflush b true
  { meta := bucketPut db.meta rev b2.meta, data := b2.data }

/-- `DB.Last` (src/unnamed/part_018 lines 177-185): the greatest meta
bucket key (`Cursor.Last`); a zero revision when the backend is empty
(`copy` into the zero-valued `[8]byte`). -/
def backendLast (db : BackendDB) : Revision :=
  match db.meta.getLast? with
  | some kv => kv.1
  | none => List.replicate 8 0

/-- `DB.Range` (src/unnamed/part_018 lines 149-174): look up the
revision's sub-bucket (`revision not found` when absent), then walk it
in key order resolving every sum in the data bucket (the source panics
on a missing value, modelled as `valueMissing`) and snappy-decoding the
stored value. -/
def backendRange (db : BackendDB) (rev : Revision) :
    Except SnapErr (List (Key × EncVal)) :=
  match bucketGet db.meta rev with
  | none => .error .revisionNotFound
  | some meta =>
    meta.mapM fun kv =>
      match dataGet db.data kv.2 with
      | none => .error .valueMissing
      | some v => do
        let d ← snappyDecode v
        pure (cloneBytes kv.1, d)

/-- `DB.snapshot` (src/unnamed/part_005 lines 418-448): serialize the
current revision big-endian, open a backend batch for it, then for each
pair of the root encode its blocks with gob and `batch.Put(key, bytes)`;
finally `batch.Close`. -/
def snapshotDB (s : Sys) (db : BackendDB) : Except SnapErr BackendDB := do
  let rev := putUint64BE (toUint64 s.rev)
  let b ← backendBatch db rev
  let b2 := s.pairs.foldl (fun b3 p => bbPut b3 p.key (gobEncode p.blocks)) b
  pure (bbClose db rev b2)

/-- `reload` (src/unnamed/part_005 lines 375-410): read the last stored
revision, range over its records in key order, gob-decode each and
`txn.Insert` a fresh pair with a fresh stream, then commit the fresh
tree with the stored revision. -/
def reloadDB (db : BackendDB) : Except SnapErr Sys := do
  let rev := backendLast db
  let resolved ← backendRange db rev
  let pairs ← resolved.foldlM
    (fun (acc : List Pair) kv => do
      let blocks ← gobDecode kv.2
      pure (treeInsert acc ⟨kv.1, blocks, acc.length⟩))
    []
  pure
    { pairs := pairs, rev := toInt64 (readUint64BE rev),
      streams := List.replicate pairs.length ⟨false, 0, []⟩, notifs := [] }

/-! ## Concrete states for witnesses -/

/-- The ordered-map invariant: pairs appear in strictly ascending key
order (and hence with distinct keys). -/
def KeysSorted (l : List Pair) : Prop :=
  l.Pairwise (fun p q => compareBytes p.key q.key < 0)

/-- Backend store invariant: entries in strictly ascending key order. -/
def EntriesSorted (es : List (Key × EncVal)) : Prop :=
  es.Pairwise (fun a b => compareBytes a.1 b.1 < 0)

/-- A one-pair root: key `"a"` with blob value `"v"` at revision 1. -/
def demoPair : Pair := ⟨[97], [⟨Val.bytes [118], 1⟩], 0⟩

/-- A demo engine state holding `demoPair` at revision 1, with its (idle)
stream. -/
def demoSys : Sys := ⟨[demoPair], 1, [⟨false, 0, []⟩], []⟩

/-- A demo batch (batch.go generation) staging key `"a"` with blob `"v"`
at revision 1. -/
def demoBatch : BatchSt := ⟨[⟨[97], BKind.unicode, [⟨Val.bytes [118], 1⟩], 0⟩], 1⟩

/-- `demoSys` after one `Watch("a")`: the pair's stream runs with one
registered, active notifier (heap index 0). -/
def demoWatchSys : Sys := ⟨[demoPair], 1, [⟨true, 1, [0]⟩], [⟨true, []⟩]⟩

end Db

namespace Db

/-! Helper lemmas about `blockSearch`, `specFindEq` and `specFindGe`. -/

theorem blockSearch_le_length (rev : Int) (bs : List Block) :
    blockSearch rev bs ≤ bs.length := by
  induction bs with
  | nil => simp [blockSearch]
  | cons b t ih =>
    by_cases h : rev ≤ b.rev <;> simp [blockSearch, h] <;> omega

theorem blockSearch_lt_length_rev (rev : Int) (bs : List Block)
    (h : blockSearch rev bs < bs.length) :
    rev ≤ (blockAt bs (blockSearch rev bs)).rev := by
  induction bs with
  | nil => simp [blockSearch] at h
  | cons b t ih =>
    by_cases hb : rev ≤ b.rev
    · simpa [blockSearch, hb, blockAt]
    · simp only [blockSearch, hb, if_false, List.length_cons] at h ⊢
      have := ih (by omega)
      simpa [blockAt] using this

theorem rev_lt_of_lt_blockSearch (rev : Int) (bs : List Block) (j : Nat)
    (h : j < blockSearch rev bs) :
    (blockAt bs j).rev < rev := by
  induction bs generalizing j with
  | nil => simp [blockSearch] at h
  | cons b t ih =>
    by_cases hb : rev ≤ b.rev
    · simp [blockSearch, hb] at h
    · simp only [blockSearch, hb, if_false] at h
      match j with
      | 0 => simpa [blockAt] using lt_of_not_le hb
      | j + 1 =>
        have := ih j (by omega)
        simpa [blockAt] using this

theorem specFindGe_eq_blockSearch (rev : Int) (bs : List Block) :
    specFindGe rev bs =
      if blockSearch rev bs < bs.length then some (blockSearch rev bs) else none := by
  induction bs with
  | nil => simp [specFindGe, blockSearch]
  | cons b t ih =>
    by_cases hb : rev ≤ b.rev
    · simp [specFindGe, blockSearch, hb]
    · simp only [specFindGe, blockSearch, hb, if_false, ih, List.length_cons]
      by_cases h : blockSearch rev t < t.length <;> simp [h] <;> omega

theorem specFindEq_eq_none (rev : Int) (bs : List Block)
    (h : ∀ b ∈ bs, b.rev ≠ rev) : specFindEq rev bs = none := by
  induction bs with
  | nil => rfl
  | cons b t ih =>
    have hb : b.rev ≠ rev := h b (by simp)
    simp [specFindEq, hb, ih fun x hx => h x (by simp [hx])]

theorem specFindEq_eq_some (rev : Int) (bs : List Block) (j : Nat)
    (h : specFindEq rev bs = some j) :
    j < bs.length ∧ (blockAt bs j).rev = rev ∧ ∀ i < j, (blockAt bs i).rev ≠ rev := by
  induction bs generalizing j with
  | nil => simp [specFindEq] at h
  | cons b t ih =>
    rw [specFindEq] at h
    by_cases hb : b.rev = rev
    · rw [if_pos hb] at h
      injection h with h
      subst h
      exact ⟨by simp, by simpa [blockAt] using hb, by omega⟩
    · rw [if_neg hb] at h
      rcases hft : specFindEq rev t with _ | j'
      · rw [hft] at h; simp at h
      · rw [hft] at h
        simp at h
        subst h
        obtain ⟨h1, h2, h3⟩ := ih j' hft
        refine ⟨by simpa using h1, by simpa [blockAt] using h2, ?_⟩
        intro i hi
        match i with
        | 0 => simpa [blockAt] using hb
        | i + 1 =>
          have := h3 i (by omega)
          simpa [blockAt] using this

theorem specFindEq_none_mem (rev : Int) (bs : List Block)
    (h : specFindEq rev bs = none) : ∀ b ∈ bs, b.rev ≠ rev := by
  induction bs with
  | nil => simp
  | cons b t ih =>
    rw [specFindEq] at h
    by_cases hb : b.rev = rev
    · simp [hb] at h
    · rw [if_neg hb] at h
      intro x hx
      rcases List.mem_cons.mp hx with rfl | hx
      · exact hb
      · rcases hft : specFindEq rev t with _ | j'
        · exact ih hft x hx
        · rw [hft] at h; simp at h

theorem blockAt_mem (bs : List Block) (i : Nat) (h : i < bs.length) :
    blockAt bs i ∈ bs := by
  induction bs generalizing i with
  | nil => simp at h
  | cons b t ih =>
    match i with
    | 0 => simp [blockAt]
    | i + 1 =>
      have := ih i (by simpa using h)
      simp only [blockAt, List.getD_cons_succ] at *
      exact List.mem_cons_of_mem b this

theorem sortedBlocks_rev_lt (bs : List Block) (hs : SortedBlocks bs) (i j : Nat)
    (hij : i < j) (hj : j < bs.length) :
    (blockAt bs i).rev < (blockAt bs j).rev := by
  induction bs generalizing i j with
  | nil => simp at hj
  | cons b t ih =>
    rw [SortedBlocks, List.pairwise_cons] at hs
    match j with
    | j + 1 =>
      match i with
      | 0 =>
        have hmem : blockAt t j ∈ t := blockAt_mem t j (by simpa using hj)
        simpa [blockAt] using hs.1 _ hmem
      | i + 1 =>
        have := ih hs.2 i j (by omega) (by simpa using hj)
        simpa [blockAt] using this

theorem blockSearch_le_of_pred (rev : Int) (bs : List Block) (j : Nat)
    (h : rev ≤ (blockAt bs j).rev) (hj : j < bs.length) :
    blockSearch rev bs ≤ j := by
  induction bs generalizing j with
  | nil => simp at hj
  | cons b t ih =>
    by_cases hb : rev ≤ b.rev
    · simp [blockSearch, hb]
    · match j with
      | 0 => exact absurd (by simpa [blockAt] using h) hb
      | j + 1 =>
        simp only [blockSearch, hb, if_false]
        have := ih j (by simpa [blockAt] using h) (by simpa using hj)
        omega

theorem blockSearch_eq_of_specFindEq (rev : Int) (bs : List Block) (j : Nat)
    (hs : SortedBlocks bs) (hft : specFindEq rev bs = some j) :
    blockSearch rev bs = j := by
  obtain ⟨hj, hrev, _⟩ := specFindEq_eq_some rev bs j hft
  have hsle : blockSearch rev bs ≤ j :=
    blockSearch_le_of_pred rev bs j (le_of_eq hrev.symm) hj
  have hjle : j ≤ blockSearch rev bs := by
    by_contra hcon
    push_neg at hcon
    have h1 : rev ≤ (blockAt bs (blockSearch rev bs)).rev :=
      blockSearch_lt_length_rev rev bs (by omega)
    have h2 := sortedBlocks_rev_lt bs hs _ j hcon hj
    rw [hrev] at h2
    omega
  omega

/-! Characterizations of the two `find` generations. -/

theorem findP0_ge (bs : List Block) (rev : Int) :
    findP0 bs rev false = optIdx (specFindGe rev bs) := by
  rw [specFindGe_eq_blockSearch]
  by_cases h : blockSearch rev bs < bs.length
  · have hr := blockSearch_lt_length_rev rev bs h
    simp [findP0, h, Nat.not_le.mpr h, hr, optIdx]
  · simp [findP0, h, Nat.le_of_not_lt h, optIdx]

theorem findP0_eq (bs : List Block) (rev : Int) (hs : SortedBlocks bs) :
    findP0 bs rev true = optIdx (specFindEq rev bs) := by
  rcases hft : specFindEq rev bs with _ | j
  · have hne := specFindEq_none_mem rev bs hft
    by_cases h : bs.length ≤ blockSearch rev bs
    · simp [findP0, h, optIdx]
    · have hlt : blockSearch rev bs < bs.length := by omega
      have hx : (blockAt bs (blockSearch rev bs)).rev ≠ rev :=
        hne _ (blockAt_mem _ _ hlt)
      simp [findP0, h, hx, optIdx]
  · obtain ⟨hj, hrev, _⟩ := specFindEq_eq_some rev bs j hft
    have hsj := blockSearch_eq_of_specFindEq rev bs j hs hft
    simp [findP0, hsj, Nat.not_le.mpr hj, hrev, optIdx]

theorem findP1_eq (bs : List Block) (rev : Int) (hs : SortedBlocks bs) :
    findP1 bs rev true =
      (match specFindEq rev bs with | some j => (j - 1, true) | none => (0, false)) := by
  rcases hft : specFindEq rev bs with _ | j
  · have hmem := specFindEq_none_mem rev bs hft
    by_cases hl : bs.length ≤ blockSearch rev bs
    · by_cases h0 : blockSearch rev bs = 0
      · -- the list must be empty here; the first guard reads the default block
        have hlen : bs.length = 0 := by omega
        have hbs : bs = [] := List.length_eq_zero.mp hlen
        subst hbs
        simp [findP1, blockSearch, blockAt]
      · simp [findP1, h0, hl]
    · have hlt : blockSearch rev bs < bs.length := by omega
      have hx : (blockAt bs (blockSearch rev bs)).rev ≠ rev :=
        hmem _ (blockAt_mem _ _ hlt)
      by_cases h0 : blockSearch rev bs = 0
      · have hr : rev ≤ (blockAt bs 0).rev := by
          have := blockSearch_lt_length_rev rev bs hlt
          rwa [h0] at this
        have hgt : rev < (blockAt bs 0).rev := by
          rw [h0] at hx
          omega
        simp [findP1, h0, hgt]
      · simp [findP1, h0, hl, hx]
  · obtain ⟨hj, hrev, _⟩ := specFindEq_eq_some rev bs j hft
    have hsj := blockSearch_eq_of_specFindEq rev bs j hs hft
    have hnguard : ¬(blockSearch rev bs = 0 ∧ rev < (blockAt bs (blockSearch rev bs)).rev) := by
      rw [hsj, hrev]
      omega
    rcases Nat.eq_zero_or_pos j with hj0 | hj0
    · subst hj0
      simp [findP1, hsj, hnguard, Nat.not_le.mpr hj, hrev]
    · simp [findP1, hsj, hnguard, Nat.not_le.mpr hj, hrev, hj0]

theorem findP1_ge (bs : List Block) (rev : Int) (hne : bs ≠ []) :
    findP1 bs rev false =
      (if rev < (blockAt bs 0).rev then (0, false)
       else ((specFindGe rev bs).getD bs.length - 1, true)) := by
  rw [specFindGe_eq_blockSearch]
  have hlen : 0 < bs.length := List.length_pos.mpr hne
  by_cases h0 : blockSearch rev bs = 0
  · have hr : rev ≤ (blockAt bs 0).rev := by
      have := blockSearch_lt_length_rev rev bs (by omega)
      rwa [h0] at this
    by_cases hlt : rev < (blockAt bs 0).rev
    · simp [findP1, h0, hlt]
    · simp [findP1, h0, hlt, hlen]
  · have h00 : (blockAt bs 0).rev < rev :=
      rev_lt_of_lt_blockSearch rev bs 0 (by omega)
    have hnlt : ¬rev < (blockAt bs 0).rev := by omega
    by_cases hl : blockSearch rev bs < bs.length
    · simp [findP1, h0, hnlt, hl, Nat.pos_of_ne_zero h0]
    · have hle := blockSearch_le_length rev bs
      have hseq : blockSearch rev bs = bs.length := by omega
      simp [findP1, h0, hnlt, hl, hseq, hne, hlen]

/-- C1 counterexample: on the two-block record `cexBlocks` (revisions 1 and
2, strictly increasing), the `pair.find` of src/unnamed/part_001 called
with `rev = 2, equal = true` reports `(0, true)`, although the smallest —
indeed the only — index whose block has revision 2 is 1; so the claim's
description of `find` is false for that implementation. -/
theorem c1_counterexample :
    SortedBlocks cexBlocks ∧
    findP1 cexBlocks 2 true = (0, true) ∧
    specFindEq 2 cexBlocks = some 1 ∧
    findP1 cexBlocks 2 true ≠ optIdx (specFindEq 2 cexBlocks) := by
  refine ⟨?_, by decide, by decide, by decide⟩
  simp [SortedBlocks, cexBlocks]

/-- C1 (amended): for every versioned record with strictly increasing block
revisions, the `pair.find` of src/unnamed/part_000 returns exactly the
index the claim describes — the smallest `i` with `blocks[i].rev == rev`
when `equal`, the smallest `i` with `blocks[i].rev ≥ rev` otherwise, and
none when absent.  The `pair.find` of src/unnamed/part_001 instead
returns, whenever it reports found, that index decremented (floored at 0):
with `equal=true` it reports `(j-1, true)` where `j` is the unique index
with `blocks[j].rev == rev` (absent → `(0, false)`); with `equal=false` it
reports absent exactly when `rev` is below the first block's revision, and
otherwise `(i-1, true)` where `i` is the smallest index with
`blocks[i].rev ≥ rev` (`i = len(blocks)` when there is none). -/
theorem c1_find_characterization :
    (∀ (bs : List Block) (rev : Int) (equal : Bool), SortedBlocks bs →
      findP0 bs rev equal =
        optIdx (if equal then specFindEq rev bs else specFindGe rev bs)) ∧
    (∀ (bs : List Block) (rev : Int), SortedBlocks bs →
      findP1 bs rev true =
        (match specFindEq rev bs with | some j => (j - 1, true) | none => (0, false))) ∧
    (∀ (bs : List Block) (rev : Int), bs ≠ [] →
      findP1 bs rev false =
        (if rev < (blockAt bs 0).rev then (0, false)
         else ((specFindGe rev bs).getD bs.length - 1, true))) := by
  refine ⟨?_, ?_, ?_⟩
  · intro bs rev equal hs
    cases equal
    · simpa using findP0_ge bs rev
    · simpa using findP0_eq bs rev hs
  · exact fun bs rev hs => findP1_eq bs rev hs
  · exact fun bs rev hne => findP1_ge bs rev hne

/-- C1 witness: the amended characterization evaluated on the concrete
record `cexBlocks`. -/
theorem c1_find_characterization_witness :
    findP0 cexBlocks 2 true = optIdx (specFindEq 2 cexBlocks) ∧
    findP1 cexBlocks 2 true = (0, true) ∧
    findP1 cexBlocks 3 false = (1, true) := by
  refine ⟨?_, ?_, ?_⟩
  · have h := c1_find_characterization.1 cexBlocks 2 true (by simp [SortedBlocks, cexBlocks])
    simpa using h
  · have h := c1_find_characterization.2.1 cexBlocks 2 (by simp [SortedBlocks, cexBlocks])
    rw [h]; decide
  · have h := c1_find_characterization.2.2 cexBlocks 3 (by decide)
    rw [h]; decide

/-- C10: Commit and Rollback on a batch transaction are idempotent and
mutually absorbing: both clear the transaction handle, and once the
handle is cleared any later Commit or Rollback is the identity on the
whole world — published root, current revision and writer lock state
included. -/
theorem c10_commit_rollback_absorbing :
    ∀ w : DbWorld,
      (txnCommit w).txn = none ∧
      (txnRollback w).txn = none ∧
      txnCommit (txnCommit w) = txnCommit w ∧
      txnRollback (txnCommit w) = txnCommit w ∧
      txnCommit (txnRollback w) = txnRollback w ∧
      txnRollback (txnRollback w) = txnRollback w := by
  intro w
  cases hw : w.txn <;> simp [txnCommit, txnRollback, hw]

/-- C5: the inverted-range guard of `DB.Range` fires exactly when
`compare(from, to) > 0`; since `bytes.Compare` treats a nil slice as
empty, this includes every call with a non-empty `from` and an absent
`to` — witnessed by `from = "a"`, `to = None` — contradicting the claim
that `invertedRange` requires both bounds to be present. -/
theorem c5_inverted_range_guard :
    (∀ (s : Sys) (fromK toK : Option Key) (rev limit : Int),
      (dbRange s fromK toK rev limit).1 = .error .invertedRange ↔
        0 < compareBytes (optBytes fromK) (optBytes toK)) ∧
    (∀ (s : Sys) (rev limit : Int),
      (dbRange s (some [97]) none rev limit).1 = .error .invertedRange) := by
  constructor
  · intro s fromK toK rev limit
    unfold dbRange
    by_cases hg : 0 < compareBytes (optBytes fromK) (optBytes toK)
    · simp [hg]
    · by_cases hb : fromK.isSome ∧ toK = none
      · obtain ⟨h1, h2⟩ := hb
        subst h2
        simp [hg, h1]
      · simp [hg, hb]
  · intro s rev limit
    unfold dbRange
    rw [if_pos (by decide)]

/-- C6: divergence at a concrete input — on the one-key state `demoSys`
(key "a" present), `Range(from="a", to=None, rev=1)` returns the
`invertedRange` error and no stream, although `Get("a", 1, false)`
succeeds and the point query would deliver exactly one event; the claimed
get-equivalent branch of `DB.Range` is unreachable for non-empty `from`
because the inverted-range guard precedes the `to == nil` test. -/
theorem c6_point_query_unreachable :
    (dbRange demoSys (some [97]) none 1 0).1 = .error .invertedRange ∧
    (dbGet demoSys [97] 1 false).1 = .ok (Val.bytes [118], 1) ∧
    pointEvents demoSys [97] 1 = [Event.val [97] (Val.bytes [118]) 1 1] := by
  refine ⟨?_, ?_, ?_⟩ <;> decide

/-- C2: for a key present in the current root, `Get` returns the last
block's payload and revision (with the root's current revision) when
`rev ≤ 0`; when `rev > 0` it returns exactly the block `pair.find`
locates, and it errors `revisionNotFound` precisely when `find` reports
the revision absent. -/
theorem c2_get_characterization :
    ∀ (s : Sys) (key : Key) (rev : Int) (equal : Bool) (p : Pair),
      treeGet s.pairs key = some p →
      (rev ≤ 0 →
        dbGet s key rev equal =
          (.ok ((pairLast p.blocks).data, (pairLast p.blocks).rev), s.rev)) ∧
      (0 < rev → ∀ i,
        findP1 p.blocks rev equal = (i, true) →
        dbGet s key rev equal =
          (.ok ((blockAt p.blocks i).data, (blockAt p.blocks i).rev), s.rev)) ∧
      ((dbGet s key rev equal).1 = .error .revisionNotFound ↔
        0 < rev ∧ (findP1 p.blocks rev equal).2 = false) := by
  intro s key rev equal p hp
  refine ⟨?_, ?_, ?_⟩
  · intro hrev
    simp [dbGet, hp, lookupBlock, not_lt.mpr hrev]
  · intro hrev i hfind
    simp [dbGet, hp, lookupBlock, hrev, hfind]
  · by_cases hrev : 0 < rev
    · rcases hfind : findP1 p.blocks rev equal with ⟨i, fnd⟩
      cases fnd <;> simp [dbGet, hp, lookupBlock, hrev, hfind]
    · simp [dbGet, hp, lookupBlock, hrev]

/-- C2 witness: `Get` on the one-key state `demoSys` — current value at
`rev = 0`, exact hit at `rev = 1, equal`, and `revisionNotFound` at the
absent revision 5 with `equal`. -/
theorem c2_get_characterization_witness :
    dbGet demoSys [97] 0 false = (.ok (Val.bytes [118], 1), 1) ∧
    dbGet demoSys [97] 1 true = (.ok (Val.bytes [118], 1), 1) ∧
    (dbGet demoSys [97] 5 true).1 = .error .revisionNotFound := by
  refine ⟨?_, ?_, ?_⟩
  · exact (c2_get_characterization demoSys [97] 0 false demoPair (by decide)).1 (by decide)
  · exact (c2_get_characterization demoSys [97] 1 true demoPair (by decide)).2.1
      (by decide) 0 (by decide)
  · exact (c2_get_characterization demoSys [97] 5 true demoPair (by decide)).2.2.mpr
      ⟨by decide, by decide⟩

/-- C4: `Get` and `Watch` fail with `keyNotFound` exactly when the key is
absent from the current root, and `Batch.Delete` on a batch freshly
forked from a root fails with `keyNotFound` exactly when the key is
absent from that root; on present keys none of the three produces
`keyNotFound`. -/
theorem c4_key_not_found :
    (∀ (s : Sys) (key : Key) (rev : Int) (equal : Bool),
      (dbGet s key rev equal).1 = .error .keyNotFound ↔ treeGet s.pairs key = none) ∧
    (∀ (s : Sys) (key : Key),
      (dbWatch s key).1.2 = .error .keyNotFound ↔ treeGet s.pairs key = none) ∧
    (∀ (root : List BPair) (rev : Int) (key : Key) (prev : Bool),
      (batchDelete (freshBatch root rev) key prev).2 = .error .keyNotFound ↔
        bGet root key = none) := by
  refine ⟨?_, ?_, ?_⟩
  · intro s key rev equal
    cases hp : treeGet s.pairs key with
    | none => simp [dbGet, hp]
    | some p =>
      cases hb : lookupBlock p.blocks rev equal <;> simp [dbGet, hp, hb]
  · intro s key
    cases hp : treeGet s.pairs key with
    | none => simp [dbWatch, hp]
    | some p => simp [dbWatch, hp]
  · intro root rev key prev
    cases hp : bGet root key with
    | none => simp [batchDelete, freshBatch, hp]
    | some p => simp [batchDelete, freshBatch, hp]

/-! Field-preservation lemmas for the notification core: sending and
closing notifiers touches only the notifier heap. -/

theorem notifSend_fields (s : Sys) (nid : Nat) (e : Event) :
    (notifSend s nid e).pairs = s.pairs ∧ (notifSend s nid e).rev = s.rev ∧
      (notifSend s nid e).streams = s.streams := by
  unfold notifSend
  cases s.notifs.get? nid with
  | none => exact ⟨rfl, rfl, rfl⟩
  | some nf =>
    by_cases h : nf.active <;> simp [h]

theorem notifClose_fields (s : Sys) (nid : Nat) (e : DbError) :
    (notifClose s nid e).pairs = s.pairs ∧ (notifClose s nid e).rev = s.rev ∧
      (notifClose s nid e).streams = s.streams := by
  unfold notifClose
  cases s.notifs.get? nid with
  | none => exact ⟨rfl, rfl, rfl⟩
  | some nf =>
    by_cases h : nf.active <;> simp [h]

theorem foldl_notifSend_fields (nids : List Nat) (e : Event) (s : Sys) :
    ((nids.foldl (fun s2 nid => notifSend s2 nid e) s).pairs = s.pairs ∧
      (nids.foldl (fun s2 nid => notifSend s2 nid e) s).rev = s.rev ∧
      (nids.foldl (fun s2 nid => notifSend s2 nid e) s).streams = s.streams) := by
  induction nids generalizing s with
  | nil => exact ⟨rfl, rfl, rfl⟩
  | cons n t ih =>
    have h1 := notifSend_fields s n e
    have h2 := ih (notifSend s n e)
    simp only [List.foldl_cons]
    exact ⟨h2.1.trans h1.1, h2.2.1.trans h1.2.1, h2.2.2.trans h1.2.2⟩

theorem foldl_notifClose_fields (nids : List Nat) (e : DbError) (s : Sys) :
    ((nids.foldl (fun s2 nid => notifClose s2 nid e) s).pairs = s.pairs ∧
      (nids.foldl (fun s2 nid => notifClose s2 nid e) s).rev = s.rev ∧
      (nids.foldl (fun s2 nid => notifClose s2 nid e) s).streams = s.streams) := by
  induction nids generalizing s with
  | nil => exact ⟨rfl, rfl, rfl⟩
  | cons n t ih =>
    have h1 := notifClose_fields s n e
    have h2 := ih (notifClose s n e)
    simp only [List.foldl_cons]
    exact ⟨h2.1.trans h1.1, h2.2.1.trans h1.2.1, h2.2.2.trans h1.2.2⟩

theorem streamNotify_fields (s : Sys) (sid : Nat) (p : Pair) (cur : Int) :
    (streamNotify s sid p cur).pairs = s.pairs ∧ (streamNotify s sid p cur).rev = s.rev ∧
      (streamNotify s sid p cur).streams = s.streams := by
  unfold streamNotify
  cases s.streams.get? sid with
  | none => exact ⟨rfl, rfl, rfl⟩
  | some st =>
    by_cases h : st.running
    · simpa [h] using foldl_notifSend_fields st.nids _ s
    · simp [h]

theorem streamCancel_pairs_rev (s : Sys) (sid : Nat) :
    (streamCancel s sid).pairs = s.pairs ∧ (streamCancel s sid).rev = s.rev := by
  unfold streamCancel
  cases s.streams.get? sid with
  | none => exact ⟨rfl, rfl⟩
  | some st =>
    by_cases h : st.running
    · have := foldl_notifClose_fields st.nids DbError.pairDeleted s
      simp [h, this.1, this.2.1]
    · simp [h]

/-- `Txn.Update` either fails with `incompatibleValue` leaving the staged
state untouched, or succeeds returning the incremented staged revision. -/
theorem txnUpdate_cases (s : Sys) (key : Key) (up : Option Val → Val) (ts : Bool) :
    ((txnUpdate s key up ts).1 = s ∧
      (txnUpdate s key up ts).2 = .error .incompatibleValue) ∨
    ((txnUpdate s key up ts).1.rev = s.rev + 1 ∧
      (txnUpdate s key up ts).2 = .ok (s.rev + 1)) := by
  unfold txnUpdate
  cases hp : treeGet s.pairs key with
  | some p =>
    by_cases ht : typeEqual (pairLast p.blocks).data (up (some (pairLast p.blocks).data)) = false
    · left
      simp [ht]
    · right
      simp only [ht, if_false]
      exact ⟨(streamNotify_fields _ _ _ _).2.1, rfl⟩
  | none =>
    right
    exact ⟨(streamNotify_fields _ _ _ _).2.1, rfl⟩

/-- `Batch.insert` either fails with `incompatibleValue` leaving the batch
untouched, or succeeds with the staged revision incremented. -/
theorem batchInsert_cases (b : BatchSt) (key : Key) (v : Val) (ts prev : Bool) :
    ((batchInsert b key v ts prev).1 = b ∧
      (batchInsert b key v ts prev).2 = .error .incompatibleValue) ∨
    ((batchInsert b key v ts prev).1.rev = b.rev + 1 ∧
      ∃ r, (batchInsert b key v ts prev).2 = .ok r) := by
  unfold batchInsert
  cases hp : bGet b.staged key with
  | some parent =>
    by_cases hm : (v.isNum && !parent.isNum) || (!v.isNum && parent.isNum)
    · left
      simp [hm]
    · right
      simp [hm]
  | none =>
    right
    exact ⟨rfl, _, rfl⟩

/-- C3: every successful mutating batch operation advances the staged
revision by exactly one, and a failed one leaves the open batch exactly
as it was (staged revision and staged map untouched): `Txn.Update` of the
engine generation (which `Txn.Put` wraps with a constant updater), and
`Batch.insert` — the shared body of `Insert`, `Put`, `Increment` and
`Decrement` — plus `Batch.Delete` of the batch.go generation. -/
theorem c3_mutation_revision_and_failure :
    (∀ (s : Sys) (key : Key) (up : Option Val → Val) (ts : Bool),
      (∀ r, (txnUpdate s key up ts).2 = .ok r →
        r = s.rev + 1 ∧ (txnUpdate s key up ts).1.rev = s.rev + 1) ∧
      (∀ e, (txnUpdate s key up ts).2 = .error e → (txnUpdate s key up ts).1 = s)) ∧
    (∀ (s : Sys) (key : Key) (data : Val) (ts : Bool),
      txnPut s key data ts = txnUpdate s key (fun _ => data) ts) ∧
    (∀ (b : BatchSt) (key : Key) (v : Val) (ts prev : Bool),
      (∀ r, (batchInsert b key v ts prev).2 = .ok r →
        (batchInsert b key v ts prev).1.rev = b.rev + 1) ∧
      (∀ e, (batchInsert b key v ts prev).2 = .error e →
        (batchInsert b key v ts prev).1 = b)) ∧
    (∀ (b : BatchSt) (key : Key) (prev : Bool),
      (∀ r, (batchDelete b key prev).2 = .ok r →
        (batchDelete b key prev).1.rev = b.rev + 1) ∧
      (∀ e, (batchDelete b key prev).2 = .error e → (batchDelete b key prev).1 = b)) := by
  refine ⟨?_, fun _ _ _ _ => rfl, ?_, ?_⟩
  · intro s key up ts
    rcases txnUpdate_cases s key up ts with ⟨h1, h2⟩ | ⟨h1, h2⟩
    · constructor
      · intro r hr
        rw [h2] at hr
        exact absurd hr (by simp)
      · intro e _
        exact h1
    · constructor
      · intro r hr
        rw [h2] at hr
        injection hr with hr
        exact ⟨hr.symm, h1⟩
      · intro e he
        rw [h2] at he
        exact absurd he (by simp)
  · intro b key v ts prev
    rcases batchInsert_cases b key v ts prev with ⟨h1, h2⟩ | ⟨h1, _, h2⟩
    · constructor
      · intro r hr
        rw [h2] at hr
        exact absurd hr (by simp)
      · intro e _
        exact h1
    · constructor
      · intro r _
        exact h1
      · intro e he
        rw [h2] at he
        exact absurd he (by simp)
  · intro b key prev
    cases hp : bGet b.staged key with
    | some p =>
      constructor
      · intro r _
        simp [batchDelete, hp]
      · intro e he
        simp [batchDelete, hp] at he
    | none =>
      constructor
      · intro r hr
        simp [batchDelete, hp] at hr
      · intro e _
        simp [batchDelete, hp]

/-- C3 witness: a successful blob update advances the staged revision of
`demoSys` from 1 to 2; an incompatible numeric update on the same blob
key fails and leaves the staged state identical; the same on the batch.go
generation, plus delete success and failure. -/
theorem c3_mutation_witness :
    (txnUpdate demoSys [97] (fun _ => Val.bytes [119]) false).1.rev = 2 ∧
    (txnUpdate demoSys [97] (fun _ => Val.num 7) false).1 = demoSys ∧
    (batchInsert demoBatch [97] (Val.bytes [119]) false false).1.rev = 2 ∧
    (batchInsert demoBatch [97] (Val.num 7) false false).1 = demoBatch ∧
    (batchDelete demoBatch [97] false).1.rev = 2 ∧
    (batchDelete demoBatch [98] false).1 = demoBatch := by
  refine ⟨?_, ?_, ?_, ?_, ?_, ?_⟩
  · exact ((c3_mutation_revision_and_failure.1 demoSys [97]
      (fun _ => Val.bytes [119]) false).1 2 (by decide)).2
  · exact (c3_mutation_revision_and_failure.1 demoSys [97]
      (fun _ => Val.num 7) false).2 .incompatibleValue (by decide)
  · exact (c3_mutation_revision_and_failure.2.2.1 demoBatch [97]
      (Val.bytes [119]) false false).1 none (by decide)
  · exact (c3_mutation_revision_and_failure.2.2.1 demoBatch [97]
      (Val.num 7) false false).2 .incompatibleValue (by decide)
  · exact (c3_mutation_revision_and_failure.2.2.2 demoBatch [97] false).1
      ⟨Val.bytes [118], 1⟩ (by decide)
  · exact (c3_mutation_revision_and_failure.2.2.2 demoBatch [98] false).2
      .keyNotFound (by decide)

/-! Lemmas about `bytes.Compare` and the modelled ordered map. -/

theorem compare_self (k : Key) : compareBytes k k = 0 := by
  induction k with
  | nil => rfl
  | cons a t ih => simp [compareBytes, ih]

theorem compare_eq_zero_iff (a b : Key) : compareBytes a b = 0 ↔ a = b := by
  induction a generalizing b with
  | nil => cases b <;> simp [compareBytes]
  | cons x xs ih =>
    cases b with
    | nil => simp [compareBytes]
    | cons y ys =>
      by_cases h1 : x < y
      · simp [compareBytes, h1]
        omega
      · by_cases h2 : y < x
        · simp [compareBytes, h1, h2]
          omega
        · have hxy : x = y := by omega
          subst hxy
          simp [compareBytes, h1, h2, ih ys]

theorem treeGet_mem (l : List Pair) (k : Key) (p : Pair)
    (h : treeGet l k = some p) : p ∈ l := by
  induction l with
  | nil => simp [treeGet] at h
  | cons q t ih =>
    rw [treeGet] at h
    by_cases hc : compareBytes k q.key = 0
    · rw [if_pos hc] at h
      injection h with h
      exact h ▸ List.mem_cons_self q t
    · rw [if_neg hc] at h
      exact List.mem_cons_of_mem q (ih h)

theorem treeGet_key (l : List Pair) (k : Key) (p : Pair)
    (h : treeGet l k = some p) : compareBytes k p.key = 0 := by
  induction l with
  | nil => simp [treeGet] at h
  | cons q t ih =>
    rw [treeGet] at h
    by_cases hc : compareBytes k q.key = 0
    · rw [if_pos hc] at h
      injection h with h
      exact h ▸ hc
    · rw [if_neg hc] at h
      exact ih h

theorem treeInsert_mem (l : List Pair) (p q : Pair)
    (h : q ∈ treeInsert l p) : q = p ∨ q ∈ l := by
  induction l with
  | nil =>
    rw [treeInsert] at h
    simp at h
    exact Or.inl h
  | cons r t ih =>
    rw [treeInsert] at h
    by_cases h1 : compareBytes p.key r.key < 0
    · rw [if_pos h1] at h
      rcases List.mem_cons.mp h with rfl | h
      · exact Or.inl rfl
      · exact Or.inr h
    · rw [if_neg h1] at h
      by_cases h2 : compareBytes p.key r.key = 0
      · rw [if_pos h2] at h
        rcases List.mem_cons.mp h with rfl | h
        · exact Or.inl rfl
        · exact Or.inr (List.mem_cons_of_mem r h)
      · rw [if_neg h2] at h
        rcases List.mem_cons.mp h with rfl | h
        · exact Or.inr (List.mem_cons_self _ _)
        · rcases ih h with h | h
          · exact Or.inl h
          · exact Or.inr (List.mem_cons_of_mem r h)

theorem treeGet_treeInsert (l : List Pair) (p : Pair) (k : Key)
    (hk : compareBytes k p.key = 0) : treeGet (treeInsert l p) k = some p := by
  have hkey : k = p.key := (compare_eq_zero_iff k p.key).mp hk
  induction l with
  | nil => simp [treeInsert, treeGet, hk]
  | cons r t ih =>
    rw [treeInsert]
    by_cases h1 : compareBytes p.key r.key < 0
    · rw [if_pos h1, treeGet, if_pos hk]
    · rw [if_neg h1]
      by_cases h2 : compareBytes p.key r.key = 0
      · rw [if_pos h2, treeGet, if_pos hk]
      · rw [if_neg h2, treeGet, if_neg ?_]
        · exact ih
        · subst hkey
          exact h2

theorem treeDelete_subset (l : List Pair) (k : Key) (q : Pair)
    (h : q ∈ treeDelete l k) : q ∈ l := by
  induction l with
  | nil => simpa [treeDelete] using h
  | cons r t ih =>
    rw [treeDelete] at h
    by_cases hc : compareBytes k r.key = 0
    · rw [if_pos hc] at h
      exact List.mem_cons_of_mem r h
    · rw [if_neg hc] at h
      rcases List.mem_cons.mp h with rfl | h
      · exact List.mem_cons_self _ _
      · exact List.mem_cons_of_mem r (ih h)

theorem pairLast_mem (bs : List Block) (h : bs ≠ []) : pairLast bs ∈ bs := by
  rw [pairLast, List.getLast?_eq_getLast bs h]
  exact List.getLast_mem h

theorem typeEqual_isNum (a b : Val) (h : ¬typeEqual a b = false) :
    a.isNum = b.isNum := by
  cases a <;> cases b <;> simp [typeEqual, Val.isNum] at h ⊢

theorem kindConst_append (bs : List Block) (d : Val) (rev : Int)
    (hk : KindConst bs) (hne : bs ≠ [])
    (hd : d.isNum = (pairLast bs).data.isNum) :
    KindConst (bs ++ [⟨d, rev⟩]) := by
  intro b1 hb1 b2 hb2
  have hlast := pairLast_mem bs hne
  rcases List.mem_append.mp hb1 with h1 | h1 <;>
    rcases List.mem_append.mp hb2 with h2 | h2
  · exact hk b1 h1 b2 h2
  · simp at h2
    subst h2
    exact (hk b1 h1 _ hlast).trans hd.symm
  · simp at h1
    subst h1
    exact (hd.trans (hk _ hlast b2 h2))
  · simp at h1 h2
    subst h1
    subst h2
    rfl

/-- `SysWF` only looks at the pairs and the revision. -/
theorem sysWF_of_fields (s t : Sys) (hp : t.pairs = s.pairs) (hr : t.rev = s.rev)
    (h : SysWF s) : SysWF t := by
  intro q hq
  rw [hp] at hq
  rw [hr]
  exact h q hq

/-- `pair.insert` (part_001) preserves the record invariants when the new
revision exceeds every stored revision and the new data has the record's
kind. -/
theorem pairWF_insertP1 (p : Pair) (d : Val) (rev : Int) (ts : Bool)
    (hne : p.blocks ≠ []) (hsort : SortedBlocks p.blocks) (hkind : KindConst p.blocks)
    (hd : d.isNum = (pairLast p.blocks).data.isNum)
    (hb : ∀ b ∈ p.blocks, b.rev < rev) :
    (pairInsertP1 p d rev ts).blocks ≠ [] ∧
      SortedBlocks (pairInsertP1 p d rev ts).blocks ∧
      KindConst (pairInsertP1 p d rev ts).blocks ∧
      ∀ b ∈ (pairInsertP1 p d rev ts).blocks, b.rev ≤ rev := by
  unfold pairInsertP1
  by_cases hts : ts = true
  · rw [if_pos hts]
    refine ⟨by simp, by simp [SortedBlocks], ?_, ?_⟩
    · intro b1 hb1 b2 hb2
      simp at hb1 hb2
      rw [hb1, hb2]
    · intro b hbm
      simp at hbm
      rw [hbm]
  · rw [if_neg hts]
    refine ⟨by simp, ?_, ?_, ?_⟩
    · rw [SortedBlocks, List.pairwise_append]
      refine ⟨hsort, by simp [SortedBlocks], ?_⟩
      intro a ha b hbm
      simp at hbm
      rw [hbm]
      exact hb a ha
    · exact kindConst_append _ _ _ hkind hne hd
    · intro b hbm
      rcases List.mem_append.mp hbm with h1 | h1
      · exact le_of_lt (hb b h1)
      · simp at h1
        rw [h1]

/-- One `Txn.Update` preserves the record invariants. -/
theorem sysWF_txnUpdate (s : Sys) (key : Key) (up : Option Val → Val) (ts : Bool)
    (hs : SysWF s) : SysWF (txnUpdate s key up ts).1 := by
  unfold txnUpdate
  cases hp : treeGet s.pairs key with
  | some p =>
    by_cases ht : typeEqual (pairLast p.blocks).data (up (some (pairLast p.blocks).data)) = false
    · simpa [ht] using hs
    · simp only [ht, if_false]
      obtain ⟨⟨hne, hsort, hkind⟩, hbound⟩ := hs p (treeGet_mem _ _ _ hp)
      have hdnum := typeEqual_isNum _ _ ht
      refine sysWF_of_fields _ _ (streamNotify_fields _ _ _ _).1
        (streamNotify_fields _ _ _ _).2.1 ?_
      intro q hq
      rcases treeInsert_mem _ _ _ hq with rfl | hq2
      · have hlt : ∀ b ∈ p.blocks, b.rev < s.rev + 1 := by
          intro b hbm
          have := hbound b hbm
          omega
        have hstep := pairWF_insertP1 p (up (some (pairLast p.blocks).data))
          (s.rev + 1) ts hne hsort hkind hdnum.symm hlt
        exact ⟨⟨hstep.1, hstep.2.1, hstep.2.2.1⟩, hstep.2.2.2⟩
      · obtain ⟨hwf, hb⟩ := hs q hq2
        refine ⟨hwf, ?_⟩
        intro b hbm
        have := hb b hbm
        show b.rev ≤ s.rev + 1
        omega
  | none =>
    refine sysWF_of_fields _ _ (streamNotify_fields _ _ _ _).1
      (streamNotify_fields _ _ _ _).2.1 ?_
    intro q hq
    rcases treeInsert_mem _ _ _ hq with rfl | hq2
    · refine ⟨⟨by simp, by simp [SortedBlocks], ?_⟩, ?_⟩
      · intro b1 hb1 b2 hb2
        simp at hb1 hb2
        rw [hb1, hb2]
      · intro b hbm
        simp at hbm
        rw [hbm]
    · obtain ⟨hwf, hb⟩ := hs q hq2
      refine ⟨hwf, ?_⟩
      intro b hbm
      have := hb b hbm
      show b.rev ≤ s.rev + 1
      omega

/-- One `Txn.Delete` preserves the record invariants. -/
theorem sysWF_txnDelete (s : Sys) (key : Key) (hs : SysWF s) :
    SysWF (txnDelete s key).1 := by
  unfold txnDelete
  cases hp : treeGet s.pairs key with
  | some p =>
    refine sysWF_of_fields _ _
      ((streamCancel_pairs_rev _ _).1.trans (streamNotify_fields _ _ _ _).1)
      ((streamCancel_pairs_rev _ _).2.trans (streamNotify_fields _ _ _ _).2.1) ?_
    intro q hq
    obtain ⟨hwf, hb⟩ := hs q (treeDelete_subset _ _ _ hq)
    refine ⟨hwf, ?_⟩
    intro b hbm
    have := hb b hbm
    simp
    omega
  | none => exact hs

/-- Every root reachable from `New` through batch operations satisfies the
record invariants. -/
theorem sysWF_runOps (ops : List WOp) : SysWF (runOps emptySys ops) := by
  suffices h : ∀ s, SysWF s → SysWF (runOps s ops) by
    refine h emptySys ?_
    intro p hp
    simp [emptySys] at hp
  induction ops with
  | nil => exact fun s hs => hs
  | cons op t ih =>
    intro s hs
    rw [runOps, List.foldl_cons]
    cases op with
    | update key up ts => exact ih (applyWOp s (.update key up ts)) (sysWF_txnUpdate s key up ts hs)
    | delete key => exact ih (applyWOp s (.delete key)) (sysWF_txnDelete s key hs)

theorem pairInsertP1_key (p : Pair) (d : Val) (rev : Int) (ts : Bool) :
    (pairInsertP1 p d rev ts).key = p.key := by
  unfold pairInsertP1
  split <;> rfl

theorem pairInsertP1_new_mem (p : Pair) (d : Val) (rev : Int) (ts : Bool) :
    (⟨d, rev⟩ : Block) ∈ (pairInsertP1 p d rev ts).blocks := by
  unfold pairInsertP1
  split <;> simp

/-- C7: every record in a root reachable from `New` through the engine's
batch write operations (`Update`, which `Put`/insert/tombstone wrap, and
`Delete`) has a non-empty block sequence, strictly increasing revisions
and a single value kind; a successful `Update` of an existing key yields
a successor record of the same kind as the prior record; and the
part_000 `increment` keeps the kind tag, the key, and the record
invariants as well. -/
theorem c7_reachable_invariants :
    (∀ ops : List WOp, ∀ p ∈ (runOps emptySys ops).pairs,
      p.blocks ≠ [] ∧ SortedBlocks p.blocks ∧ KindConst p.blocks) ∧
    (∀ (s : Sys) (key : Key) (up : Option Val → Val) (ts : Bool) (p : Pair) (r : Int),
      SysWF s → treeGet s.pairs key = some p → (txnUpdate s key up ts).2 = .ok r →
      ∃ p2, treeGet (txnUpdate s key up ts).1.pairs key = some p2 ∧
        ∀ b ∈ p2.blocks, b.data.isNum = (pairLast p.blocks).data.isNum) ∧
    (∀ (p : P0Pair) (t rev : Int),
      (p0Increment p t rev).typ = p.typ ∧ (p0Increment p t rev).key = p.key ∧
      (p0Increment p t rev).blocks ≠ [] ∧ SortedBlocks (p0Increment p t rev).blocks ∧
      KindConst (p0Increment p t rev).blocks) := by
  refine ⟨?_, ?_, ?_⟩
  · intro ops p hp
    obtain ⟨⟨h1, h2, h3⟩, _⟩ := sysWF_runOps ops p hp
    exact ⟨h1, h2, h3⟩
  · intro s key up ts p r hs hp hok
    obtain ⟨⟨hne, hsort, hkind⟩, hbound⟩ := hs p (treeGet_mem _ _ _ hp)
    unfold txnUpdate at hok ⊢
    rw [hp] at hok ⊢
    dsimp only at hok ⊢
    by_cases ht : typeEqual (pairLast p.blocks).data (up (some (pairLast p.blocks).data)) = false
    · simp [ht] at hok
    · rw [if_neg ht] at hok ⊢
      dsimp only at hok ⊢
      have hdnum := typeEqual_isNum _ _ ht
      have hlt : ∀ b ∈ p.blocks, b.rev < s.rev + 1 := by
        intro b hbm
        have := hbound b hbm
        omega
      have hstep := pairWF_insertP1 p (up (some (pairLast p.blocks).data))
        (s.rev + 1) ts hne hsort hkind hdnum.symm hlt
      have hk : compareBytes key
          (pairInsertP1 p (up (some (pairLast p.blocks).data)) (s.rev + 1) ts).key = 0 := by
        rw [pairInsertP1_key]
        exact treeGet_key _ _ _ hp
      rw [(streamNotify_fields _ _ _ _).1]
      dsimp only
      refine ⟨_, treeGet_treeInsert _ _ _ hk, ?_⟩
      intro b hbm
      have hmemd := pairInsertP1_new_mem p (up (some (pairLast p.blocks).data)) (s.rev + 1) ts
      exact (hstep.2.2.1 b hbm _ hmemd).trans hdnum.symm
  · intro p t rev
    refine ⟨rfl, rfl, by simp [p0Increment], by simp [p0Increment, SortedBlocks], ?_⟩
    intro b1 hb1 b2 hb2
    simp [p0Increment] at hb1 hb2
    rw [hb1, hb2]

/-- C7 witness: a successful blob update of the one-key state `demoSys`
yields a successor record for key "a" whose blocks all keep the blob
kind of the prior record. -/
theorem c7_reachable_invariants_witness :
    ∃ p2,
      treeGet (txnUpdate demoSys [97] (fun _ => Val.bytes [119]) false).1.pairs [97] =
        some p2 ∧
      ∀ b ∈ p2.blocks, b.data.isNum = (pairLast demoPair.blocks).data.isNum :=
  c7_reachable_invariants.2.1 demoSys [97] (fun _ => Val.bytes [119]) false demoPair 2
    (by simp only [SysWF, PairWF, SortedBlocks, KindConst]; decide) (by decide) (by decide)

/-! Lemmas for the snapshot round trip (C8). -/

theorem compare_neg (a b : Key) : compareBytes a b = -compareBytes b a := by
  induction a generalizing b with
  | nil => cases b <;> simp [compareBytes]
  | cons x xs ih =>
    cases b with
    | nil => simp [compareBytes]
    | cons y ys =>
      by_cases h1 : x < y
      · have h2 : ¬y < x := by omega
        simp [compareBytes, h1, h2]
      · by_cases h2 : y < x
        · simp [compareBytes, h1, h2]
        · simp [compareBytes, h1, h2, ih ys]

theorem readUint64BE_putUint64BE (n : Nat) (h : n < 2 ^ 64) :
    readUint64BE (putUint64BE n) = n := by
  simp only [readUint64BE, putUint64BE, List.foldl]
  omega

theorem toInt64_toUint64 (r : Int) (h1 : -(2 ^ 63) ≤ r) (h2 : r < 2 ^ 63) :
    toInt64 (toUint64 r) = r := by
  unfold toInt64 toUint64
  split <;> omega

theorem toUint64_lt (r : Int) : toUint64 r < 2 ^ 64 := by
  unfold toUint64
  omega

theorem bucketPut_append {β : Type} (es : List (List Nat × β)) (k : List Nat) (v : β)
    (h : ∀ e ∈ es, compareBytes e.1 k < 0) :
    bucketPut es k v = es ++ [(k, v)] := by
  induction es with
  | nil => rfl
  | cons e t ih =>
    have he : compareBytes e.1 k < 0 := h e (List.mem_cons_self _ _)
    have hflip : 0 < compareBytes k e.1 := by
      rw [compare_neg]
      omega
    rw [show e = (e.1, e.2) from rfl, bucketPut]
    rw [if_neg (by omega), if_neg (by omega)]
    rw [ih fun x hx => h x (List.mem_cons_of_mem e hx)]
    rfl

theorem bucketPut_mem {β : Type} (es : List (List Nat × β)) (k : List Nat) (v : β)
    (m : List Nat × β) (h : m ∈ bucketPut es k v) : m = (k, v) ∨ m ∈ es := by
  induction es with
  | nil =>
    rw [bucketPut] at h
    simp at h
    exact Or.inl h
  | cons e t ih =>
    rw [show e = (e.1, e.2) from rfl, bucketPut] at h
    by_cases h1 : compareBytes k e.1 < 0
    · rw [if_pos h1] at h
      rcases List.mem_cons.mp h with rfl | h
      · exact Or.inl rfl
      · exact Or.inr h
    · rw [if_neg h1] at h
      by_cases h2 : compareBytes k e.1 = 0
      · rw [if_pos h2] at h
        rcases List.mem_cons.mp h with rfl | h
        · exact Or.inl rfl
        · exact Or.inr (List.mem_cons_of_mem _ h)
      · rw [if_neg h2] at h
        rcases List.mem_cons.mp h with rfl | h
        · exact Or.inr (List.mem_cons_self _ _)
        · rcases ih h with h | h
          · exact Or.inl h
          · exact Or.inr (List.mem_cons_of_mem _ h)

theorem commitB_bflush (b : BBatch) (force : Bool) :
    commitB (bflush b force) = commitB b := by
  rw [bflush]
  split
  · simp [commitB]
  · rfl

theorem bflush_force (b : BBatch) :
    (bflush b true).meta = (commitB b).1 ∧ (bflush b true).data = (commitB b).2 := by
  rw [bflush, if_pos (Or.inr (Or.inr rfl))]
  exact ⟨rfl, rfl⟩

theorem commitB_bbPut (b : BBatch) (k : Key) (v : EncVal) :
    commitB (bbPut b k v) = putResolved (commitB b) (k, v) := by
  rw [bbPut, commitB_bflush]
  simp [commitB, List.foldl_append, cloneBytes, snappyEncode]

theorem commitB_foldl (l : List Pair) (b : BBatch) :
    commitB (l.foldl (fun b2 p => bbPut b2 p.key (gobEncode p.blocks)) b) =
      (l.map fun p => (p.key, gobEncode p.blocks)).foldl putResolved (commitB b) := by
  induction l generalizing b with
  | nil => rfl
  | cons p t ih =>
    rw [List.foldl_cons, ih, commitB_bbPut, List.map_cons, List.foldl_cons]

theorem fold_putResolved_meta (es : List (Key × EncVal))
    (meta : List (Key × EncVal)) (data : List (EncVal × EncVal))
    (hsort : EntriesSorted es)
    (hlt : ∀ m ∈ meta, ∀ e ∈ es, compareBytes m.1 e.1 < 0) :
    (es.foldl putResolved (meta, data)).1 = meta ++ es := by
  induction es generalizing meta data with
  | nil => simp
  | cons e t ih =>
    rw [EntriesSorted, List.pairwise_cons] at hsort
    rw [List.foldl_cons]
    have hm : (putResolved (meta, data) e).1 = meta ++ [e] := by
      show bucketPut meta e.1 (sha1sum e.2) = meta ++ [e]
      rw [bucketPut_append meta e.1 _ fun m hm2 => hlt m hm2 e (List.mem_cons_self _ _)]
      rfl
    rcases hPR : putResolved (meta, data) e with ⟨m2, d2⟩
    rw [hPR] at hm
    dsimp only at hm
    subst hm
    have hlt2 : ∀ m ∈ meta ++ [e], ∀ e2 ∈ t, compareBytes m.1 e2.1 < 0 := by
      intro m hm2 e2 he2
      rcases List.mem_append.mp hm2 with h1 | h1
      · exact hlt m h1 e2 (List.mem_cons_of_mem e he2)
      · simp at h1
        rw [h1]
        exact hsort.1 e2 he2
    rw [ih (meta ++ [e]) d2 hsort.2 hlt2]
    simp

theorem dataGet_mem (d : List (EncVal × EncVal)) (s v : EncVal)
    (h : dataGet d s = some v) : (s, v) ∈ d := by
  induction d with
  | nil => simp [dataGet] at h
  | cons e t ih =>
    rw [show e = (e.1, e.2) from rfl, dataGet] at h
    by_cases he : e.1 = s
    · rw [if_pos he] at h
      injection h with h
      subst h
      subst he
      exact List.mem_cons_self _ _
    · rw [if_neg he] at h
      exact List.mem_cons_of_mem _ (ih h)

theorem fold_putResolved_data (es : List (Key × EncVal))
    (meta : List (Key × EncVal)) (data : List (EncVal × EncVal))
    (hdata : ∀ d ∈ data, d.2 = d.1)
    (hcover : ∀ m ∈ meta, dataGet data m.2 = some m.2) :
    (∀ d ∈ (es.foldl putResolved (meta, data)).2, d.2 = d.1) ∧
      (∀ m ∈ (es.foldl putResolved (meta, data)).1,
        dataGet (es.foldl putResolved (meta, data)).2 m.2 = some m.2) := by
  induction es generalizing meta data with
  | nil => exact ⟨hdata, hcover⟩
  | cons e t ih =>
    rw [List.foldl_cons]
    have hstep : putResolved (meta, data) e =
        (bucketPut meta e.1 e.2,
          match dataGet data e.2 with
          | none => (e.2, e.2) :: data
          | some _ => data) := rfl
    rw [hstep]
    have hdata2 : ∀ d ∈ (match dataGet data e.2 with
        | none => (e.2, e.2) :: data
        | some _ => data), d.2 = d.1 := by
      cases hg : dataGet data e.2 with
      | none =>
        intro d hd
        rcases List.mem_cons.mp hd with rfl | hd
        · rfl
        · exact hdata d hd
      | some w => exact hdata
    have hcover2 : ∀ m ∈ bucketPut meta e.1 e.2,
        dataGet (match dataGet data e.2 with
          | none => (e.2, e.2) :: data
          | some _ => data) m.2 = some m.2 := by
      intro m hm
      rcases bucketPut_mem meta e.1 e.2 m hm with rfl | hm2
      · dsimp only
        cases hg : dataGet data e.2 with
        | none => simp [dataGet]
        | some w =>
          have hmem := dataGet_mem data e.2 w hg
          have hw : w = e.2 := hdata (e.2, w) hmem
          rw [hg, hw]
      · have hold := hcover m hm2
        cases hg : dataGet data e.2 with
        | none =>
          rw [dataGet]
          by_cases he : e.2 = m.2
          · rw [if_pos he, he]
          · rw [if_neg he]
            exact hold
        | some w => exact hold
    exact ih (bucketPut meta e.1 e.2) _ hdata2 hcover2

theorem mapM_resolved (data : List (EncVal × EncVal)) (meta : List (Key × EncVal))
    (hcover : ∀ m ∈ meta, dataGet data m.2 = some m.2) :
    (meta.mapM (fun kv =>
        match dataGet data kv.2 with
        | none => .error .valueMissing
        | some v => do
          let d ← snappyDecode v
          pure (cloneBytes kv.1, d)) : Except SnapErr (List (Key × EncVal))) =
      .ok meta := by
  induction meta with
  | nil => rfl
  | cons m t ih =>
    rw [List.mapM_cons, hcover m (List.mem_cons_self _ _),
      ih fun x hx => hcover x (List.mem_cons_of_mem m hx)]
    rfl

theorem backendRange_resolved (db : BackendDB) (rev : Revision)
    (meta : List (Key × EncVal))
    (hmeta : bucketGet db.meta rev = some meta)
    (hcover : ∀ m ∈ meta, dataGet db.data m.2 = some m.2) :
    backendRange db rev = .ok meta := by
  rw [backendRange, hmeta]
  exact mapM_resolved db.data meta hcover

theorem treeInsert_append (l : List Pair) (p : Pair)
    (h : ∀ q ∈ l, compareBytes q.key p.key < 0) :
    treeInsert l p = l ++ [p] := by
  induction l with
  | nil => rfl
  | cons q t ih =>
    have hq : compareBytes q.key p.key < 0 := h q (List.mem_cons_self _ _)
    have hflip : 0 < compareBytes p.key q.key := by
      rw [compare_neg]
      omega
    rw [treeInsert, if_neg (by omega), if_neg (by omega),
      ih fun x hx => h x (List.mem_cons_of_mem q hx)]
    rfl

theorem reload_fold_proj (es : List (Key × EncVal)) (acc : List Pair)
    (hsort : EntriesSorted es)
    (hlt : ∀ q ∈ acc, ∀ e ∈ es, compareBytes q.key e.1 < 0) :
    ((es.foldl (fun acc2 kv => treeInsert acc2 ⟨kv.1, kv.2, acc2.length⟩) acc).map
        fun p => (p.key, p.blocks)) =
      (acc.map fun p => (p.key, p.blocks)) ++ es := by
  induction es generalizing acc with
  | nil => simp
  | cons e t ih =>
    rw [EntriesSorted, List.pairwise_cons] at hsort
    rw [List.foldl_cons, treeInsert_append acc _ fun q hq =>
      hlt q hq e (List.mem_cons_self _ _)]
    have hlt2 : ∀ q ∈ acc ++ [(⟨e.1, e.2, acc.length⟩ : Pair)], ∀ e2 ∈ t,
        compareBytes q.key e2.1 < 0 := by
      intro q hq e2 he2
      rcases List.mem_append.mp hq with hm | hm
      · exact hlt q hm e2 (List.mem_cons_of_mem e he2)
      · simp at hm
        rw [hm]
        exact hsort.1 e2 he2
    rw [ih (acc ++ [(⟨e.1, e.2, acc.length⟩ : Pair)]) hsort.2 hlt2]
    simp

theorem exceptBind_ok {α β : Type} (a : α) (f : α → Except SnapErr β) :
    (Except.ok a >>= f) = f a := rfl

theorem reload_foldlM_eq (es : List (Key × EncVal)) (acc : List Pair) :
    (es.foldlM
        (fun (acc2 : List Pair) kv => do
          let blocks ← gobDecode kv.2
          pure (treeInsert acc2 ⟨kv.1, blocks, acc2.length⟩))
        acc : Except SnapErr (List Pair)) =
      .ok (es.foldl (fun acc2 kv => treeInsert acc2 ⟨kv.1, kv.2, acc2.length⟩) acc) := by
  induction es generalizing acc with
  | nil => rfl
  | cons e t ih => simpa [List.foldlM_cons, gobDecode] using ih _

/-- C8: snapshot followed by load is the identity on database contents:
for every key-sorted root and every int64 revision, snapshotting into a
fresh backend succeeds, and reloading that backend yields a state whose
pairs carry exactly the same keys and block sequences (payloads, kinds
and revisions) in the same order — no key added or lost — and whose
current revision equals the original. -/
theorem c8_snapshot_reload_roundtrip :
    ∀ s : Sys, KeysSorted s.pairs → -(2 ^ 63) ≤ s.rev → s.rev < 2 ^ 63 →
    ∃ db2 s2,
      snapshotDB s emptyBackend = .ok db2 ∧
      reloadDB db2 = .ok s2 ∧
      (s2.pairs.map fun p => (p.key, p.blocks)) = (s.pairs.map fun p => (p.key, p.blocks)) ∧
      s2.rev = s.rev := by
  intro s hsort h1 h2
  have hessorted : EntriesSorted (s.pairs.map fun p => (p.key, p.blocks)) := by
    rw [EntriesSorted, List.pairwise_map]
    exact hsort
  set rev8 := putUint64BE (toUint64 s.rev) with hrev8
  set F := s.pairs.foldl (fun b3 p => bbPut b3 p.key (gobEncode p.blocks))
    ⟨[], 0, defaultMaxBatchEntries, defaultMaxBatchSize, [], []⟩ with hF
  have hsnap : snapshotDB s emptyBackend = .ok (bbClose emptyBackend rev8 F) := rfl
  have hcommit : commitB F =
      (s.pairs.map fun p => (p.key, p.blocks)).foldl putResolved ([], []) := by
    rw [hF, commitB_foldl]
    rfl
  have hmeta : ((s.pairs.map fun p => (p.key, p.blocks)).foldl putResolved
      (([] : List (Key × EncVal)), ([] : List (EncVal × EncVal)))).1 =
      s.pairs.map fun p => (p.key, p.blocks) := by
    rw [fold_putResolved_meta _ _ _ hessorted (by simp)]
    simp
  have hdata := fold_putResolved_data (s.pairs.map fun p => (p.key, p.blocks)) [] []
    (by simp) (by simp)
  have hFm : (bflush F true).meta = s.pairs.map fun p => (p.key, p.blocks) := by
    rw [(bflush_force F).1, hcommit, hmeta]
  have hFd : (bflush F true).data =
      ((s.pairs.map fun p => (p.key, p.blocks)).foldl putResolved ([], [])).2 := by
    rw [(bflush_force F).2, hcommit]
  have hdbmeta : (bbClose emptyBackend rev8 F).meta = [(rev8, (bflush F true).meta)] := rfl
  have hlast : backendLast (bbClose emptyBackend rev8 F) = rev8 := rfl
  have hbg : bucketGet (bbClose emptyBackend rev8 F).meta rev8 = some (bflush F true).meta := by
    rw [hdbmeta, bucketGet, if_pos (compare_self _)]
  have hcov : ∀ m ∈ (bflush F true).meta,
      dataGet (bbClose emptyBackend rev8 F).data m.2 = some m.2 := by
    intro m hm
    have hm2 : m ∈ ((s.pairs.map fun p => (p.key, p.blocks)).foldl putResolved
        (([] : List (Key × EncVal)), ([] : List (EncVal × EncVal)))).1 := by
      rw [hmeta, ← hFm]
      exact hm
    have := hdata.2 m hm2
    rw [show (bbClose emptyBackend rev8 F).data = (bflush F true).data from rfl, hFd]
    exact this
  have hrange : backendRange (bbClose emptyBackend rev8 F) rev8 =
      .ok (bflush F true).meta :=
    backendRange_resolved _ _ _ hbg hcov
  have hreload : reloadDB (bbClose emptyBackend rev8 F) =
      .ok
        { pairs := ((bflush F true).meta).foldl
            (fun acc2 kv => treeInsert acc2 ⟨kv.1, kv.2, acc2.length⟩) [],
          rev := toInt64 (readUint64BE rev8),
          streams := List.replicate (((bflush F true).meta).foldl
            (fun acc2 kv => treeInsert acc2 ⟨kv.1, kv.2, acc2.length⟩) []).length
            ⟨false, 0, []⟩,
          notifs := [] } := by
    rw [reloadDB, hlast, hrange, exceptBind_ok, reload_foldlM_eq, exceptBind_ok]
    rfl
  refine ⟨_, _, hsnap, hreload, ?_, ?_⟩
  · show (((bflush F true).meta).foldl
        (fun acc2 kv => treeInsert acc2 ⟨kv.1, kv.2, acc2.length⟩) []).map
        (fun p => (p.key, p.blocks)) = _
    have hsorted2 : EntriesSorted (bflush F true).meta := by
      rw [hFm]
      exact hessorted
    rw [reload_fold_proj _ [] hsorted2 (by simp), hFm]
    rfl
  · show toInt64 (readUint64BE rev8) = s.rev
    rw [hrev8, readUint64BE_putUint64BE _ (toUint64_lt s.rev)]
    exact toInt64_toUint64 s.rev h1 h2

/-- C8 witness: the round trip evaluated on the one-key state `demoSys`. -/
theorem c8_snapshot_reload_roundtrip_witness :
    ∃ db2 s2,
      snapshotDB demoSys emptyBackend = .ok db2 ∧
      reloadDB db2 = .ok s2 ∧
      (s2.pairs.map fun p => (p.key, p.blocks)) =
        (demoSys.pairs.map fun p => (p.key, p.blocks)) ∧
      s2.rev = demoSys.rev :=
  c8_snapshot_reload_roundtrip demoSys (by simp [KeysSorted, demoSys]) (by decide) (by decide)

/-! Lemmas for the delete/notification protocol (C9). -/

theorem listGet_set_self {α : Type} (l : List α) (n : Nat) (a : α) (h : n < l.length) :
    (l.set n a).get? n = some a := by
  induction l generalizing n with
  | nil => simp at h
  | cons x t ih =>
    match n with
    | 0 => rfl
    | n + 1 => exact ih n (by simpa using h)

theorem listGet_set_other {α : Type} (l : List α) (n m : Nat) (a : α) (h : n ≠ m) :
    (l.set n a).get? m = l.get? m := by
  induction l generalizing n m with
  | nil => rfl
  | cons x t ih =>
    match n, m with
    | 0, 0 => exact absurd rfl h
    | 0, m + 1 => rfl
    | n + 1, 0 => rfl
    | n + 1, m + 1 => exact ih n m (by omega)

theorem listGet_lt {α : Type} (l : List α) (n : Nat) (a : α)
    (h : l.get? n = some a) : n < l.length := by
  induction l generalizing n with
  | nil => simp [List.get?] at h
  | cons x t ih =>
    match n with
    | 0 => simp
    | n + 1 =>
      have := ih n h
      simpa using Nat.succ_lt_succ this

theorem notifSend_get_other (s : Sys) (m nid : Nat) (e : Event) (h : m ≠ nid) :
    (notifSend s m e).notifs.get? nid = s.notifs.get? nid := by
  rw [notifSend]
  cases hm : s.notifs.get? m with
  | none => rfl
  | some nf =>
    by_cases ha : nf.active
    · simp only [ha, if_true]
      exact listGet_set_other _ _ _ _ h
    · simp [ha]

theorem notifClose_get_other (s : Sys) (m nid : Nat) (e : DbError) (h : m ≠ nid) :
    (notifClose s m e).notifs.get? nid = s.notifs.get? nid := by
  rw [notifClose]
  cases hm : s.notifs.get? m with
  | none => rfl
  | some nf =>
    by_cases ha : nf.active
    · simp only [ha, if_true]
      exact listGet_set_other _ _ _ _ h
    · simp [ha]

theorem foldl_send_get_notmem (nids : List Nat) (e : Event) (s : Sys) (nid : Nat)
    (h : nid ∉ nids) :
    (nids.foldl (fun s2 n => notifSend s2 n e) s).notifs.get? nid = s.notifs.get? nid := by
  induction nids generalizing s with
  | nil => rfl
  | cons n t ih =>
    rw [List.foldl_cons]
    have hne : n ≠ nid := fun hc => h (hc ▸ List.mem_cons_self _ _)
    rw [ih _ fun hc => h (List.mem_cons_of_mem n hc)]
    exact notifSend_get_other s n nid e hne

theorem foldl_close_get_notmem (nids : List Nat) (e : DbError) (s : Sys) (nid : Nat)
    (h : nid ∉ nids) :
    (nids.foldl (fun s2 n => notifClose s2 n e) s).notifs.get? nid = s.notifs.get? nid := by
  induction nids generalizing s with
  | nil => rfl
  | cons n t ih =>
    rw [List.foldl_cons]
    have hne : n ≠ nid := fun hc => h (hc ▸ List.mem_cons_self _ _)
    rw [ih _ fun hc => h (List.mem_cons_of_mem n hc)]
    exact notifClose_get_other s n nid e hne

theorem foldl_send_get_mem (nids : List Nat) (e : Event) (s : Sys) (nid : Nat) (nf : Notif)
    (hmem : nid ∈ nids) (hnd : nids.Nodup)
    (hget : s.notifs.get? nid = some nf) (hact : nf.active = true) :
    (nids.foldl (fun s2 n => notifSend s2 n e) s).notifs.get? nid =
      some ⟨true, nf.queue ++ [e]⟩ := by
  induction nids generalizing s with
  | nil => simp at hmem
  | cons n t ih =>
    rcases List.mem_cons.mp hmem with rfl | hmem2
    · have hnotin : nid ∉ t := (List.nodup_cons.mp hnd).1
      rw [List.foldl_cons, foldl_send_get_notmem t e _ nid hnotin]
      rw [notifSend, hget]
      dsimp only
      rw [if_pos hact]
      exact listGet_set_self _ _ _ (listGet_lt _ _ _ hget)
    · have hne : n ≠ nid := by
        intro hc
        subst hc
        exact (List.nodup_cons.mp hnd).1 hmem2
      rw [List.foldl_cons]
      exact ih _ hmem2 (List.nodup_cons.mp hnd).2
        ((notifSend_get_other s n nid e hne).trans hget)

theorem foldl_close_get_mem (nids : List Nat) (e : DbError) (s : Sys) (nid : Nat) (nf : Notif)
    (hmem : nid ∈ nids) (hnd : nids.Nodup)
    (hget : s.notifs.get? nid = some nf) (hact : nf.active = true) :
    (nids.foldl (fun s2 n => notifClose s2 n e) s).notifs.get? nid =
      some ⟨false, nf.queue ++ [Event.err e]⟩ := by
  induction nids generalizing s with
  | nil => simp at hmem
  | cons n t ih =>
    rcases List.mem_cons.mp hmem with rfl | hmem2
    · have hnotin : nid ∉ t := (List.nodup_cons.mp hnd).1
      rw [List.foldl_cons, foldl_close_get_notmem t e _ nid hnotin]
      rw [notifClose, hget]
      dsimp only
      rw [if_pos hact]
      exact listGet_set_self _ _ _ (listGet_lt _ _ _ hget)
    · have hne : n ≠ nid := by
        intro hc
        subst hc
        exact (List.nodup_cons.mp hnd).1 hmem2
      rw [List.foldl_cons]
      exact ih _ hmem2 (List.nodup_cons.mp hnd).2
        ((notifClose_get_other s n nid e hne).trans hget)

theorem treeGet_none (l : List Pair) (k : Key)
    (h : ∀ q ∈ l, ¬compareBytes k q.key = 0) : treeGet l k = none := by
  induction l with
  | nil => rfl
  | cons q t ih =>
    rw [treeGet, if_neg (h q (List.mem_cons_self _ _))]
    exact ih fun x hx => h x (List.mem_cons_of_mem q hx)

theorem treeGet_treeDelete (l : List Pair) (k : Key) (hs : KeysSorted l) :
    treeGet (treeDelete l k) k = none := by
  induction l with
  | nil => rfl
  | cons q t ih =>
    rw [KeysSorted, List.pairwise_cons] at hs
    rw [treeDelete]
    by_cases hc : compareBytes k q.key = 0
    · rw [if_pos hc]
      have hkey := (compare_eq_zero_iff _ _).mp hc
      refine treeGet_none t k ?_
      intro x hx
      have := hs.1 x hx
      rw [hkey]
      omega
    · rw [if_neg hc, treeGet, if_neg hc]
      exact ih hs.2

theorem streamNotify_run (s : Sys) (sid : Nat) (st : StreamSt) (p : Pair) (cur : Int)
    (hst : s.streams.get? sid = some st) (hrun : st.running = true) :
    streamNotify s sid p cur =
      st.nids.foldl
        (fun s2 n => notifSend s2 n
          (Event.val p.key (pairLast p.blocks).data (pairLast p.blocks).rev cur))
        s := by
  rw [streamNotify, hst]
  dsimp only
  rw [if_pos hrun]

theorem streamCancel_run (s : Sys) (sid : Nat) (st : StreamSt)
    (hst : s.streams.get? sid = some st) (hrun : st.running = true) :
    streamCancel s sid =
      { st.nids.foldl (fun s3 n => notifClose s3 n DbError.pairDeleted) s with
        streams := (st.nids.foldl (fun s3 n => notifClose s3 n DbError.pairDeleted)
          s).streams.set sid ⟨false, 0, []⟩ } := by
  rw [streamCancel, hst]
  dsimp only
  rw [if_pos hrun]

/-- The notify-then-cancel sequence of `Txn.Delete`, observed at one
registered, active notifier: its queue gains the delete notification and
then exactly one `pairDeleted` sentinel (which closes it), and the stream
itself is reset. -/
theorem cancelNotify_observed (s : Sys) (sid : Nat) (st : StreamSt) (p : Pair) (cur : Int)
    (nid : Nat) (nf : Notif)
    (hst : s.streams.get? sid = some st) (hrun : st.running = true)
    (hnd : st.nids.Nodup) (hmem : nid ∈ st.nids)
    (hnf : s.notifs.get? nid = some nf) (hact : nf.active = true) :
    (streamCancel (streamNotify s sid p cur) sid).notifs.get? nid =
      some ⟨false, nf.queue ++
        [Event.val p.key (pairLast p.blocks).data (pairLast p.blocks).rev cur,
         Event.err .pairDeleted]⟩ ∧
    (streamCancel (streamNotify s sid p cur) sid).streams.get? sid =
      some ⟨false, 0, []⟩ := by
  have hA := streamNotify_run s sid st p cur hst hrun
  set E1 := Event.val p.key (pairLast p.blocks).data (pairLast p.blocks).rev cur with hE1
  set S2 := st.nids.foldl (fun s2 n => notifSend s2 n E1) s with hS2def
  have hS2streams : S2.streams = s.streams := (foldl_notifSend_fields _ _ _).2.2
  have hS2get : S2.streams.get? sid = some st := by
    rw [hS2streams]
    exact hst
  have hB := streamCancel_run S2 sid st hS2get hrun
  have hq2 : S2.notifs.get? nid = some ⟨true, nf.queue ++ [E1]⟩ :=
    foldl_send_get_mem _ _ _ _ _ hmem hnd hnf hact
  set S3 := st.nids.foldl (fun s3 n => notifClose s3 n DbError.pairDeleted) S2 with hS3def
  have hq3 : S3.notifs.get? nid =
      some ⟨false, (nf.queue ++ [E1]) ++ [Event.err DbError.pairDeleted]⟩ :=
    foldl_close_get_mem _ _ _ _ _ hmem hnd hq2 rfl
  have hS3streams : S3.streams = s.streams :=
    ((foldl_notifClose_fields _ _ _).2.2).trans hS2streams
  constructor
  · rw [hA, hB]
    show S3.notifs.get? nid = _
    rw [hq3]
    simp
  · rw [hA, hB]
    show (S3.streams.set sid ⟨false, 0, []⟩).get? sid = _
    rw [hS3streams]
    exact listGet_set_self _ _ _ (listGet_lt _ _ _ hst)

theorem notifSend_inactive (s : Sys) (nid : Nat) (e : Event) (q : List Event)
    (h : s.notifs.get? nid = some ⟨false, q⟩) : notifSend s nid e = s := by
  rw [notifSend, h]
  simp

theorem streamNotify_stopped (s : Sys) (sid : Nat) (q : Pair) (cur : Int)
    (h : s.streams.get? sid = some ⟨false, 0, []⟩) : streamNotify s sid q cur = s := by
  rw [streamNotify, h]
  simp

/-- C9: deleting a present key in a batch and committing makes
`get(k, 0, false)` fail with `keyNotFound`, and every notifier registered
on the key's stream receives the delete notification followed by exactly
one terminal `pairDeleted` sentinel, after which it is shut down: its
queue ends with the sentinel, later sends reach it no more, and the
stream itself no longer runs. -/
theorem c9_delete_closes_stream :
    ∀ (s : Sys) (key : Key) (p : Pair) (st : StreamSt) (nf : Notif) (nid : Nat),
      KeysSorted s.pairs → treeGet s.pairs key = some p →
      s.streams.get? p.sid = some st → st.running = true →
      st.nids.Nodup → nid ∈ st.nids →
      s.notifs.get? nid = some nf → nf.active = true →
      (txnDelete s key).2 = s.rev + 1 ∧
      (dbGet (txnCommit ⟨s, true, some (txnDelete s key).1⟩).published key 0 false).1 =
        .error .keyNotFound ∧
      (txnDelete s key).1.notifs.get? nid =
        some ⟨false, nf.queue ++
          [Event.val p.key (pairLast p.blocks).data (pairLast p.blocks).rev (s.rev + 1),
           Event.err .pairDeleted]⟩ ∧
      (txnDelete s key).1.streams.get? p.sid = some ⟨false, 0, []⟩ ∧
      (∀ e, notifSend (txnDelete s key).1 nid e = (txnDelete s key).1) ∧
      (∀ q cur, streamNotify (txnDelete s key).1 p.sid q cur = (txnDelete s key).1) := by
  intro s key p st nf nid hsorted hp hst hrun hnd hmem hnf hact
  have hdel : txnDelete s key =
      (streamCancel
        (streamNotify
          { pairs := treeDelete s.pairs key, rev := s.rev + 1,
            streams := s.streams, notifs := s.notifs }
          p.sid p (s.rev + 1))
        p.sid, s.rev + 1) := by
    rw [txnDelete, hp]
  have hfold := cancelNotify_observed
    { pairs := treeDelete s.pairs key, rev := s.rev + 1,
      streams := s.streams, notifs := s.notifs }
    p.sid st p (s.rev + 1) nid nf hst hrun hnd hmem hnf hact
  have hnotif : (txnDelete s key).1.notifs.get? nid =
      some ⟨false, nf.queue ++
        [Event.val p.key (pairLast p.blocks).data (pairLast p.blocks).rev (s.rev + 1),
         Event.err .pairDeleted]⟩ := by
    rw [hdel]
    exact hfold.1
  have hstream : (txnDelete s key).1.streams.get? p.sid = some ⟨false, 0, []⟩ := by
    rw [hdel]
    exact hfold.2
  have hpairs : (txnDelete s key).1.pairs = treeDelete s.pairs key := by
    rw [hdel]
    exact ((streamCancel_pairs_rev _ _).1.trans (streamNotify_fields _ _ _ _).1)
  refine ⟨by rw [hdel], ?_, hnotif, hstream, ?_, ?_⟩
  · have hnone : treeGet (txnDelete s key).1.pairs key = none := by
      rw [hpairs]
      exact treeGet_treeDelete _ _ hsorted
    show (dbGet (txnDelete s key).1 key 0 false).1 = _
    rw [dbGet, hnone]
  · intro e
    exact notifSend_inactive _ _ e _ hnotif
  · intro q cur
    exact streamNotify_stopped _ _ q cur hstream

/-- C9 witness: deleting key "a" of the watched one-key state
`demoWatchSys` (one active subscriber): the subscriber's queue becomes
the delete notification followed by the `pairDeleted` sentinel, and
`get("a", 0, false)` after commit fails with `keyNotFound`. -/
theorem c9_delete_closes_stream_witness :
    (txnDelete demoWatchSys [97]).2 = 2 ∧
    (dbGet (txnCommit ⟨demoWatchSys, true, some (txnDelete demoWatchSys [97]).1⟩).published
      [97] 0 false).1 = .error .keyNotFound ∧
    (txnDelete demoWatchSys [97]).1.notifs.get? 0 =
      some ⟨false, [Event.val [97] (Val.bytes [118]) 1 2, Event.err .pairDeleted]⟩ := by
  have h := c9_delete_closes_stream demoWatchSys [97] demoPair ⟨true, 1, [0]⟩ ⟨true, []⟩ 0
    (by simp [KeysSorted, demoWatchSys]) (by decide) (by decide) (by decide)
    (by decide) (by decide) (by decide) (by decide)
  exact ⟨h.1.trans (by decide), h.2.1, h.2.2.1.trans (by decide)⟩

end Db
